import Mathlib

/-!
Verification development for a kanban board program whose state of record is
a set of markdown ticket files on disk. The definitions below are a shallow
embedding of the relevant source functions:

- the ticket codec (ParseTicketContent, splitFrontmatter, ToMarkdown,
  GenerateFilename, slugify from internal/models/ticket.go),
- the debounced filesystem watcher (debounceEvent, run from the watcher
  package),
- the board model (loadColumnTickets, loadAllTickets, getFilteredTickets,
  filterTickets, deleteSelectedTicket, moveSelectedTicket and the search and
  file-change message handlers from the ui package).

Strings are modelled as lists of characters. Timestamps are modelled as
natural numbers, 0 standing for the zero time, and the RFC3339 encoding of a
timestamp is abstracted by an injective decimal encoding with the matching
decoder. The YAML layer is modelled on the plain-scalar mapping fragment
that the serializer emits: a mapping line "key: value", a key with a
following block sequence of "- item" lines, blank lines, and unknown keys
which are tolerated; any other shape is a parse error, as the fragment has
no further legal form. The Unicode letter and digit tables and the Unicode
lower-case map are modelled on their ASCII and Latin-1 fragment; every
theorem below only evaluates them on that fragment.
-/

/-! ## Characters and strings -/

/-- Strings as lists of characters. -/
abbrev Str := List Char

/-- A string literal as a list of characters. -/
def strOf (s : String) : Str := s.data

/-- The whitespace class trimmed by strings.TrimSpace (ASCII fragment). -/
def isSpc (c : Char) : Bool :=
  c == ' ' || c == '\t' || c == '\n' || c == '\r' || c.toNat == 11 || c.toNat == 12

/-- strings.TrimSpace: drop whitespace from both ends. -/
def trimS (s : Str) : Str :=
  ((s.dropWhile isSpc).reverse.dropWhile isSpc).reverse

/-- One step of splitting a string at newline characters. -/
def linesF (c : Char) (acc : List Str) : List Str :=
  if c = '\n' then [] :: acc
  else
    match acc with
    | [] => [[c]]
    | l :: ls => (c :: l) :: ls

/-- Split at newline characters; always returns at least one (possibly empty) line. -/
def lines0 (s : Str) : List Str := s.foldr linesF [[]]

/-- bufio.ScanLines drops one carriage return at the end of a line. -/
def dropCR (l : Str) : Str := if l.getLast? = some '\r' then l.dropLast else l

/-- The line sequence produced by a bufio.Scanner with ScanLines: empty input
yields no lines, and a final newline does not produce an extra empty line. -/
def goLines (s : Str) : List Str :=
  if s = [] then []
  else
    (if (lines0 s).getLast? = some [] then (lines0 s).dropLast else lines0 s).map dropCR

/-- strings.Join with a newline separator. -/
def interN : List Str → Str
  | [] => []
  | [l] => l
  | l :: ls => l ++ '\n' :: interN ls

/-- Concatenate lines, terminating every line with a newline. -/
def unlinesN (ls : List Str) : Str := ls.foldr (fun l acc => l ++ '\n' :: acc) []

/-- Does the second string start with the first? -/
def startsW : Str → Str → Bool
  | [], _ => true
  | _ :: _, [] => false
  | a :: as, b :: bs => a == b && startsW as bs

/-- strings.Contains: does the first string contain the second? -/
def containsS (hay needle : Str) : Bool :=
  match hay with
  | [] => needle.isEmpty
  | c :: t => startsW needle (c :: t) || containsS t needle

/-- Decimal digits of a positive number, least significant first; the first
argument is fuel and is structurally decreasing. -/
def encAux : Nat → Nat → List Nat
  | 0, _ => []
  | fuel + 1, n => if n = 0 then [] else n % 10 :: encAux fuel (n / 10)

/-- The decimal encoding of a natural number. -/
def encNat (n : Nat) : Str :=
  if n = 0 then ['0'] else ((encAux n n).reverse).map Nat.digitChar

/-- The value of a decimal digit character. -/
def charDigit (c : Char) : Option Nat :=
  if 48 ≤ c.toNat ∧ c.toNat ≤ 57 then some (c.toNat - 48) else none

/-- Decode a nonempty all-digit string as a natural number. -/
def decNat (s : Str) : Option Nat :=
  match s with
  | [] => none
  | _ => s.foldlM (fun a c => (charDigit c).map (fun d => a * 10 + d)) 0

/-- Split a string at its first colon: the part before and the part after. -/
def splitColon : Str → Option (Str × Str)
  | [] => none
  | c :: r => if c = ':' then some ([], r) else (splitColon r).map (fun p => (c :: p.1, p.2))

/-! ## The YAML frontmatter fragment -/

/-- The frontmatter fields as the YAML layer reports them; a field the input
never mentions (or gives a null value) stays absent. -/
structure RawFM where
  title : Option Str
  tags : Option (List Str)
  created : Option Nat
  updated : Option Nat
deriving DecidableEq

/-- The record of an input with no frontmatter fields. -/
def rawEmpty : RawFM := ⟨none, none, none, none⟩

/-- Parsing context: whether a block sequence may follow, and for which key. -/
inductive YCtx
  | top
  | tagsSeq
  | unknownSeq
deriving DecidableEq

/-- The delimiter line of the frontmatter block. -/
def dashesS : Str := ['-', '-', '-']

/-- One line of the YAML mapping fragment. Blank lines are skipped; an item
line "- v" extends the tags sequence when one is open and is tolerated under
an unknown key; a "key: value" line assigns a known field or is ignored for
an unknown key; anything else is a parse error. -/
def parseLine (st : RawFM × YCtx) (l : Str) : Except Unit (RawFM × YCtx) :=
  let t := trimS l
  if t = [] then Except.ok st
  else if startsW (strOf "- ") t || t = ['-'] then
    match st.2 with
    | YCtx.tagsSeq =>
      let item := trimS (t.drop 2)
      Except.ok ({ st.1 with tags := some ((st.1.tags.getD []) ++ [item]) }, YCtx.tagsSeq)
    | YCtx.unknownSeq => Except.ok st
    | YCtx.top => Except.error ()
  else
    match splitColon l with
    | none => Except.error ()
    | some (k, rest) =>
      if rest = [] then
        if k = strOf "tags" then Except.ok (st.1, YCtx.tagsSeq)
        else if k = strOf "title" then Except.ok ({ st.1 with title := some [] }, YCtx.top)
        else if k = strOf "created" ∨ k = strOf "updated" then Except.ok (st.1, YCtx.top)
        else Except.ok (st.1, YCtx.unknownSeq)
      else if rest.head? ≠ some ' ' then Except.error ()
      else
        let v := trimS rest
        if k = strOf "title" then Except.ok ({ st.1 with title := some v }, YCtx.top)
        else if k = strOf "tags" then Except.error ()
        else if k = strOf "created" then
          match decNat v with
          | some n => Except.ok ({ st.1 with created := some n }, YCtx.top)
          | none => Except.error ()
        else if k = strOf "updated" then
          match decNat v with
          | some n => Except.ok ({ st.1 with updated := some n }, YCtx.top)
          | none => Except.error ()
        else Except.ok (st.1, YCtx.unknownSeq)

/-- yaml.Unmarshal on the frontmatter fragment. -/
def yamlUnmarshal (s : Str) : Except Unit RawFM :=
  match (lines0 s).foldlM parseLine (rawEmpty, YCtx.top) with
  | Except.ok st => Except.ok st.1
  | Except.error e => Except.error e

/-! ## The ticket codec -/

/-- The Ticket struct: frontmatter fields, the markdown body, and the file
location fields that parsing from a path fills in. -/
structure GoTicket where
  title : Str
  tags : List Str
  created : Nat
  updated : Nat
  content : Str
  filePath : Str
  column : Str
deriving DecidableEq

/-- splitFrontmatter walks the lines with an in-frontmatter flag: a line
trimming to the delimiter toggles the flag, every other line goes to the
frontmatter or the content according to the flag. -/
def splitFMLines : Bool → List Str → List Str × List Str
  | _, [] => ([], [])
  | inFm, l :: rest =>
    if inFm then
      if trimS l = dashesS then splitFMLines false rest
      else
        let p := splitFMLines true rest
        (l :: p.1, p.2)
    else
      if trimS l = dashesS then splitFMLines true rest
      else
        let p := splitFMLines false rest
        (p.1, l :: p.2)

/-- splitFrontmatter: separate the YAML frontmatter from the markdown body. -/
def splitFrontmatter (data : Str) : Str × Str :=
  let p := splitFMLines false (goLines data)
  (interN p.1, interN p.2)

/-- The frontmatter record of an input: an empty frontmatter is not sent to
the YAML layer and yields the empty record. -/
def rawOf (data : Str) : Except Unit RawFM :=
  if (splitFrontmatter data).1 = [] then Except.ok rawEmpty
  else yamlUnmarshal (splitFrontmatter data).1

/-- ParseTicketContent: split the frontmatter, decode it, trim the body, and
apply the defaulting policy (zero created becomes now, zero updated becomes
created). -/
def parseTicketContent (data : Str) (now : Nat) : Except Unit GoTicket :=
  match rawOf data with
  | Except.error e => Except.error e
  | Except.ok raw =>
    let c0 := raw.created.getD 0
    let u0 := raw.updated.getD 0
    let created := if c0 = 0 then now else c0
    Except.ok
      { title := raw.title.getD []
        tags := raw.tags.getD []
        created := created
        updated := if u0 = 0 then created else u0
        content := trimS (splitFrontmatter data).2
        filePath := []
        column := [] }

/-- The frontmatter lines that yaml.Marshal emits for a ticket: title, the
tags block (omitted when empty), created and updated, in struct order. -/
def fmLinesOf (t : GoTicket) : List Str :=
  (strOf "title: " ++ t.title) ::
    ((if t.tags = [] then [] else strOf "tags:" :: t.tags.map (fun tg => strOf "    - " ++ tg)) ++
      [strOf "created: " ++ encNat t.created, strOf "updated: " ++ encNat t.updated])

/-- ToMarkdown: the delimiter line, the frontmatter, the delimiter line, a
blank line, then the body with one trailing newline when nonempty. -/
def toMarkdown (t : GoTicket) : Str :=
  unlinesN (dashesS :: fmLinesOf t ++ [dashesS, []]) ++
    (if t.content = [] then [] else t.content ++ ['\n'])

/-- A character a plain YAML scalar may contain in this fragment: not a
colon, not a comment sign, and no whitespace other than the plain space. -/
def okScalarChar (c : Char) : Bool :=
  !(c == ':') && !(c == '#') && (c == ' ' || !isSpc c)

/-- A string the serializer emits as a plain scalar on one line: nonempty,
every character plain, and no space at either end. -/
def simpleScalar (s : Str) : Bool :=
  !s.isEmpty && s.all okScalarChar && s.head? != some ' ' && s.getLast? != some ' '

/-- A body line that survives the line scanner and does not close or reopen
a frontmatter block: no trailing carriage return, and it does not trim to
the delimiter. -/
def contentLineOk (l : Str) : Bool :=
  (l.getLast? != some '\r') && (trimS l != dashesS)

/-! ## Filename generation -/

/-- unicode.IsLetter on the ASCII and Latin-1 fragment: the two ASCII letter
ranges plus the Latin-1 letters (0xC0..0xFF except multiplication and
division signs, and the three letters 0xAA, 0xB5, 0xBA). -/
def goIsLetter (c : Char) : Bool :=
  (97 ≤ c.toNat && c.toNat ≤ 122) || (65 ≤ c.toNat && c.toNat ≤ 90) ||
    (192 ≤ c.toNat && c.toNat ≤ 255 && !(c.toNat == 215) && !(c.toNat == 247)) ||
    c.toNat == 170 || c.toNat == 181 || c.toNat == 186

/-- unicode.IsDigit on the ASCII fragment. -/
def goIsDigit (c : Char) : Bool := 48 ≤ c.toNat && c.toNat ≤ 57

/-- strings.ToLower on the ASCII and Latin-1 fragment: the two upper-case
ranges map down by 32, everything else is unchanged. -/
def goToLower (c : Char) : Char :=
  if 65 ≤ c.toNat ∧ c.toNat ≤ 90 then Char.ofNat (c.toNat + 32)
  else if 192 ≤ c.toNat ∧ c.toNat ≤ 222 ∧ c.toNat ≠ 215 then Char.ofNat (c.toNat + 32)
  else c

/-- The character filter of slugify: keep letters, digits and hyphens. -/
def keepSlugChar (c : Char) : Bool := goIsLetter c || goIsDigit c || c == '-'

/-- Collapse every run of hyphens to a single hyphen; the flag says whether
the previous kept character was a hyphen. -/
def collapseH : Bool → Str → Str
  | _, [] => []
  | prevH, c :: r =>
    if c = '-' then (if prevH then collapseH true r else '-' :: collapseH true r)
    else c :: collapseH false r

/-- strings.Trim with a hyphen cutset: drop hyphens from both ends. -/
def trimHyphens (s : Str) : Str :=
  ((s.dropWhile (fun c => c == '-')).reverse.dropWhile (fun c => c == '-')).reverse

/-- The byte length of a string under UTF-8. -/
def byteLen (s : Str) : Nat := s.foldl (fun a c => a + c.utf8Size) 0

/-- The longest character prefix within a byte budget (the source slices at
a byte index; on the inputs of the theorems below the cut always lands on a
character boundary). -/
def takeBytes : Nat → Str → Str
  | _, [] => []
  | b, c :: r => if c.utf8Size ≤ b then c :: takeBytes (b - c.utf8Size) r else []

/-- strings.TrimSuffix with a hyphen: remove one trailing hyphen if present. -/
def trimOneHyphen (s : Str) : Str :=
  if s.getLast? = some '-' then s.dropLast else s

/-- slugify: lower-case, spaces to hyphens, keep letters, digits and
hyphens, collapse hyphen runs, trim hyphens at the ends, truncate to 50
bytes without a trailing hyphen, and fall back to "untitled" when empty. -/
def slugify (title : Str) : Str :=
  let s1 := (title.map goToLower).map (fun c => if c = ' ' then '-' else c)
  let s2 := s1.filter keepSlugChar
  let s3 := trimHyphens (collapseH false s2)
  let s4 := if 50 < byteLen s3 then trimOneHyphen (takeBytes 50 s3) else s3
  if s4 = [] then strOf "untitled" else s4

/-- Zero-padded decimal of the given width. -/
def padNum (w n : Nat) : Str := List.replicate (w - (encNat n).length) '0' ++ encNat n

/-- The date layout 2006-01-02 applied to a calendar date. -/
def formatDateYMD (y mo d : Nat) : Str :=
  padNum 4 y ++ '-' :: padNum 2 mo ++ '-' :: padNum 2 d

/-- GenerateFilename: the creation date, a hyphen, the slug, and the fixed
extension. The calendar components of the creation timestamp are taken as
given, the date arithmetic of the time package being outside the model. -/
def generateFilename (y mo d : Nat) (title : Str) : Str :=
  formatDateYMD y mo d ++ '-' :: slugify title ++ strOf ".md"

/-! ## The debounced watcher -/

/-- A raw filesystem notification: arrival time, path, operation kind. -/
structure RawEvent where
  t : Nat
  path : Str
  op : Nat
deriving DecidableEq

/-- A pending debounce timer for one path. -/
structure PendingTimer where
  path : Str
  deadline : Nat
  op : Nat
deriving DecidableEq

/-- The watcher state: the per-path timer entries and the events delivered
so far, each with its path, operation kind and delivery time. -/
structure WState where
  pending : List PendingTimer
  delivered : List (Str × Nat × Nat)
deriving DecidableEq

/-- The watcher state with no timers and no deliveries. -/
def initW : WState := ⟨[], []⟩

/-- Fire every timer whose deadline has passed: deliver its synthesized
event at the deadline and discard the entry. -/
def fireDue (time : Nat) (s : WState) : WState :=
  { pending := s.pending.filter (fun pd => decide (time < pd.deadline))
    delivered :=
      s.delivered ++
        (s.pending.filter (fun pd => decide (pd.deadline ≤ time))).map
          (fun pd => (pd.path, pd.op, pd.deadline)) }

/-- debounceEvent: cancel the outstanding timer for the path of the event,
then start a new timer one debounce interval ahead carrying the operation
kind of this event. -/
def debounceEvent (D : Nat) (s : WState) (e : RawEvent) : WState :=
  { s with
      pending :=
        s.pending.filter (fun pd => decide (pd.path ≠ e.path)) ++ [⟨e.path, e.t + D, e.op⟩] }

/-- Process one raw event at its arrival time: timers due by then fire
first, then the event is debounced. -/
def stepEvent (D : Nat) (s : WState) (e : RawEvent) : WState :=
  debounceEvent D (fireDue e.t s) e

/-- After the last raw event, every remaining timer fires at its deadline. -/
def flushW (s : WState) : WState :=
  ⟨[], s.delivered ++ s.pending.map (fun pd => (pd.path, pd.op, pd.deadline))⟩

/-- The delivered events of a finite, time-ordered raw event sequence. -/
def runWatcher (D : Nat) (evs : List RawEvent) : WState :=
  flushW (evs.foldl (stepEvent D) initW)

/-- A burst after a first event: each event arrives strictly later than the
previous one and strictly less than one debounce interval after it, on the
given path. -/
def burstChainB (D : Nat) (p : Str) : RawEvent → List RawEvent → Bool
  | _, [] => true
  | prev, e :: rest =>
    decide (prev.t < e.t) && decide (e.t < prev.t + D) && decide (e.path = p) &&
      burstChainB D p e rest

/-- A bounded channel, as capacity and current queue length. -/
structure BChan where
  cap : Nat
  len : Nat
deriving DecidableEq

/-- What becomes of a send attempt. -/
inductive SendOutcome
  | enqueued
  | dropped
  | blocked
  | closedAbort
deriving DecidableEq

/-- The capacity of the watcher event channel (make(chan Event, 100)). -/
def eventChanCap : Nat := 100

/-- The capacity of the watcher error channel (make(chan error, 10)). -/
def errChanCap : Nat := 10

/-- The error forwarding in run: a select with a default case, so a full
channel drops the error. -/
def errorSend (c : BChan) : SendOutcome :=
  if c.len < c.cap then SendOutcome.enqueued else SendOutcome.dropped

/-- The event delivery in the firing timer callback: a select over the send
and the done channel, with no default case. With free space the send is
taken (when the watcher is also closed the select may take either branch;
the model prefers the send); on a full channel the callback aborts if the
watcher is closed and otherwise blocks until one branch is ready. -/
def timerEventSend (closed : Bool) (c : BChan) : SendOutcome :=
  if c.len < c.cap then SendOutcome.enqueued
  else if closed then SendOutcome.closedAbort
  else SendOutcome.blocked

/-! ## The board model -/

/-- A directory entry as os.ReadDir reports it, with the file content the
subsequent read would return. -/
structure DirEntry where
  name : Str
  isDir : Bool
  content : Str
deriving DecidableEq

/-- The filesystem as a map from directory path to entries; an unlisted
directory does not exist. -/
abbrev FS := List (Str × List DirEntry)

/-- Look a directory up in the filesystem. -/
def lookupDir : FS → Str → Option (List DirEntry)
  | [], _ => none
  | (d, es) :: r, q => if d = q then some es else lookupDir r q

/-- filepath.Join of two nonempty segments. -/
def joinP (a b : Str) : Str := a ++ '/' :: b

/-- The part of a path after its last slash, if any. -/
def baseNameAux : Str → Option Str
  | [] => none
  | c :: r =>
    match baseNameAux r with
    | some b => some b
    | none => if c = '/' then some r else none

/-- filepath.Base on a nonempty relative or absolute path. -/
def baseName (s : Str) : Str := (baseNameAux s).getD s

/-- The suffix of a string from its last dot, if any. -/
def extOfAux : Str → Option Str
  | [] => none
  | c :: r =>
    match extOfAux r with
    | some e => some e
    | none => if c = '.' then some ('.' :: r) else none

/-- filepath.Ext: the suffix from the last dot, or empty. -/
def extOf (s : Str) : Str := (extOfAux s).getD []

/-- The recognized ticket extension. -/
def mdExt : Str := strOf ".md"

/-- One directory entry of a column listing: directories and files without
the ticket extension are skipped, a file whose parse fails is skipped, and
a parsed ticket gets its path and column filled in. -/
def parseEntry (colPath colDir : Str) (now : Nat) (e : DirEntry) : Option GoTicket :=
  if e.isDir then none
  else if extOf e.name ≠ mdExt then none
  else
    match parseTicketContent e.content now with
    | Except.ok t => some { t with filePath := joinP colPath e.name, column := colDir }
    | Except.error _ => none

/-- Insert into a list sorted by updated descending, using the strict
comparator of the source sort. -/
def insertT (x : GoTicket) : List GoTicket → List GoTicket
  | [] => [x]
  | y :: ys => if y.updated < x.updated then x :: y :: ys else y :: insertT x ys

/-- The column sort: by updated timestamp descending. The source uses
sort.Slice, which promises the comparator order but leaves the order of
equal elements unspecified; an insertion sort realizes that contract. -/
def sortTickets : List GoTicket → List GoTicket
  | [] => []
  | x :: xs => insertT x (sortTickets xs)

/-- loadColumnTickets: a missing directory yields no tickets, otherwise the
entries are parsed independently and the successes sorted. -/
def loadColumnTickets (kanbanDir : Str) (fs : FS) (colDir : Str) (now : Nat) : List GoTicket :=
  match lookupDir fs (joinP kanbanDir colDir) with
  | none => []
  | some entries => sortTickets (entries.filterMap (parseEntry (joinP kanbanDir colDir) colDir now))

/-- The view modes the modelled handlers touch. -/
inductive VM
  | board
  | search
  | confirmDelete
  | moveTicket
deriving DecidableEq

/-- The board model: configuration, per-column ticket lists, the selection
indices, the search query, the view mode and the move target. -/
structure BoardModel where
  kanbanDir : Str
  colDirs : List Str
  columns : List (List GoTicket)
  activeColumn : Nat
  activeTicket : Nat
  searchQuery : Str
  viewMode : VM
  moveTarget : Nat
deriving DecidableEq

/-- strings.ToLower over a whole string. -/
def toLowerS (s : Str) : Str := s.map goToLower

/-- filterTickets: with a nonempty query, keep the tickets whose lower-cased
title contains the lower-cased query. -/
def filterTickets (q : Str) (ts : List GoTicket) : List GoTicket :=
  if q = [] then ts
  else ts.filter (fun t => containsS (toLowerS t.title) (toLowerS q))

/-- getFilteredTickets: the visible tickets of a column, filtered by the
search query when one is set. -/
def getFilteredTickets (m : BoardModel) (i : Nat) : List GoTicket :=
  if m.columns.length ≤ i then []
  else if m.searchQuery ≠ [] then filterTickets m.searchQuery (m.columns.getD i [])
  else m.columns.getD i []

/-- hasSelectedTicket: the active indices point at a visible ticket. -/
def hasSelectedTicket (m : BoardModel) : Bool :=
  if m.columns.length ≤ m.activeColumn then false
  else decide (m.activeTicket < (getFilteredTickets m m.activeColumn).length)

/-- getSelectedTicket: the visible ticket under the active indices. -/
def getSelectedTicket (m : BoardModel) : Option GoTicket :=
  (getFilteredTickets m m.activeColumn)[m.activeTicket]?

/-- loadAllTickets: replace every column list wholesale from the filesystem. -/
def loadAllTickets (m : BoardModel) (fs : FS) (now : Nat) : BoardModel :=
  { m with columns := m.colDirs.map (fun d => loadColumnTickets m.kanbanDir fs d now) }

/-- The fileChangeMsg case of Update: reload every column; nothing else in
the model changes. -/
def fileChangeStep (m : BoardModel) (fs : FS) (now : Nat) : BoardModel :=
  loadAllTickets m fs now

/-- deleteSelectedTicket: with a selected ticket, remove its file (the
filesystem argument is the state after the removal), return to board view,
reload, and decrement the active ticket index when it now reaches past the
unfiltered active column and is positive. -/
def deleteSelectedTicket (m : BoardModel) (fsAfter : FS) (now : Nat) : BoardModel :=
  match getSelectedTicket m with
  | none => m
  | some _ =>
    let m1 := loadAllTickets { m with viewMode := VM.board } fsAfter now
    let col := m1.columns.getD m.activeColumn []
    if m.activeTicket ≥ col.length ∧ 0 < m.activeTicket then
      { m1 with activeTicket := m.activeTicket - 1 }
    else m1

/-- moveSelectedTicket: with a selected ticket, a move target equal to the
active column only returns to board view; otherwise the file is renamed
(the returned pair of paths), the board reloads from the filesystem after
the rename, and the index clamp of the delete handler is applied. -/
def moveSelectedTicket (m : BoardModel) (fsAfter : FS) (now : Nat) :
    BoardModel × Option (Str × Str) :=
  match getSelectedTicket m with
  | none => (m, none)
  | some tk =>
    if m.moveTarget = m.activeColumn then ({ m with viewMode := VM.board }, none)
    else
      let targetDir := m.colDirs.getD m.moveTarget []
      let newPath := joinP (joinP m.kanbanDir targetDir) (baseName tk.filePath)
      let m1 := loadAllTickets { m with viewMode := VM.board } fsAfter now
      let col := m1.columns.getD m.activeColumn []
      let m2 :=
        if m.activeTicket ≥ col.length ∧ 0 < m.activeTicket then
          { m1 with activeTicket := m.activeTicket - 1 }
        else m1
      (m2, some (tk.filePath, newPath))

/-- The enter case of handleSearchKeys: confirm the query, reset the ticket
selection, and return to board view. -/
def setSearchConfirm (q : Str) (m : BoardModel) : BoardModel :=
  { m with searchQuery := q, activeTicket := 0, viewMode := VM.board }

/-! ## Concrete fixtures for witnesses and counterexamples -/

/-- A ticket with the given title and updated timestamp. -/
def mkTk (ti : String) (u : Nat) : GoTicket :=
  ⟨strOf ti, [], 1, u, [], [], []⟩

/-- A well-behaved ticket for the round-trip witness. -/
def rtTicket : GoTicket :=
  ⟨strOf "Fix login bug", [strOf "ui", strOf "bug"], 3, 7,
    strOf "  Body line one\nline two  ", [], []⟩

/-- A ticket with the zero created and updated timestamps. -/
def zeroTimeTicket : GoTicket := ⟨strOf "a", [], 0, 0, strOf "b", [], []⟩

/-- An empty well-formed ticket file. -/
def entryGood1 : DirEntry := ⟨strOf "a.md", false, []⟩

/-- A well-formed ticket file with frontmatter and body. -/
def entryGood2 : DirEntry := ⟨strOf "b.md", false, strOf "---\ntitle: b\n---\nbody"⟩

/-- A ticket file whose frontmatter is malformed. -/
def entryBad : DirEntry := ⟨strOf "c.md", false, strOf "---\n???\n---\n"⟩

/-- A subdirectory entry, which a listing skips. -/
def entryDir : DirEntry := ⟨strOf "sub", true, []⟩

/-- A file without the ticket extension, which a listing skips. -/
def entryTxt : DirEntry := ⟨strOf "notes.txt", false, []⟩

/-- The entries of the column directory of the listing witness. -/
def c5Entries : List DirEntry := [entryGood1, entryBad, entryGood2, entryDir, entryTxt]

/-- A filesystem with one column directory holding those entries. -/
def c5FS : FS := [(joinP (strOf "kb") (strOf "todo"), c5Entries)]

/-- A filesystem in which the todo column holds a single ticket file. -/
def oneFileFS : FS := [(joinP (strOf "kb") (strOf "todo"), [entryGood1])]

/-- A board whose only column shows three tickets, the last one selected. -/
def c2Board : BoardModel :=
  { kanbanDir := strOf "kb"
    colDirs := [strOf "todo"]
    columns := [[mkTk "a" 3, mkTk "b" 2, mkTk "c" 1]]
    activeColumn := 0
    activeTicket := 2
    searchQuery := []
    viewMode := VM.board
    moveTarget := 0 }

/-- A board whose only column shows two tickets, the last one selected. -/
def c2DelBoard : BoardModel :=
  { c2Board with columns := [[mkTk "a" 3, mkTk "b" 2]], activeTicket := 1 }

/-- A board with a search filter set, for the filtering witness. -/
def c9Board : BoardModel :=
  { kanbanDir := strOf "kb"
    colDirs := [strOf "todo"]
    columns := [[mkTk "Fix login" 3, mkTk "Other" 2, mkTk "fixup" 1]]
    activeColumn := 0
    activeTicket := 0
    searchQuery := strOf "fix"
    viewMode := VM.board
    moveTarget := 0 }

/-- A board in move mode whose move target is the active column. -/
def c10Board : BoardModel :=
  { kanbanDir := strOf "kb"
    colDirs := [strOf "todo", strOf "done"]
    columns := [[mkTk "a" 1], []]
    activeColumn := 0
    activeTicket := 0
    searchQuery := []
    viewMode := VM.moveTicket
    moveTarget := 0 }

/-- The path of the burst witness. -/
def c3Path : Str := strOf "kb/todo/a.md"

/-- The first raw event of the burst witness. -/
def c3e1 : RawEvent := ⟨0, c3Path, 1⟩

/-- The second raw event of the burst witness, 50 time units later. -/
def c3e2 : RawEvent := ⟨50, c3Path, 2⟩

/-- The value of a little-endian digit list in base ten. -/
def ofD : List Nat → Nat
  | [] => 0
  | d :: ds => d + 10 * ofD ds

/-! ## Helper lemmas: characters and decimal encoding -/

theorem charToNat_ofNat (n : Nat) (h : n < 55296) : (Char.ofNat n).toNat = n := by
  have hv : n.isValidChar := Or.inl h
  simp [Char.ofNat, hv, Char.ofNatAux, Char.toNat, UInt32.toNat, BitVec.toNat_ofNatLt]

theorem char_eq_iff_toNat (c d : Char) : c = d ↔ c.toNat = d.toNat := by
  constructor
  · intro h
    rw [h]
  · intro h
    apply Char.ext
    exact UInt32.toNat.inj h

theorem charDigit_digitChar : ∀ d, d < 10 → charDigit (Nat.digitChar d) = some d := by decide

theorem digit_simple : ∀ d, d < 10 →
    okScalarChar (Nat.digitChar d) = true ∧ isSpc (Nat.digitChar d) = false ∧
      Nat.digitChar d ≠ ' ' ∧ Nat.digitChar d ≠ ':' ∧ Nat.digitChar d ≠ '\n' ∧
      Nat.digitChar d ≠ '\r' := by decide

theorem encAux_ofD : ∀ fuel n, n ≤ fuel → ofD (encAux fuel n) = n := by
  intro fuel
  induction fuel with
  | zero =>
    intro n hn
    interval_cases n
    rfl
  | succ f ih =>
    intro n hn
    by_cases h0 : n = 0
    · subst h0
      simp [encAux, ofD]
    · have hdiv : n / 10 ≤ f := by omega
      simp only [encAux, if_neg h0, ofD, ih (n / 10) hdiv]
      omega

theorem encAux_digits : ∀ fuel n d, d ∈ encAux fuel n → d < 10 := by
  intro fuel
  induction fuel with
  | zero =>
    intro n d hd
    simp [encAux] at hd
  | succ f ih =>
    intro n d hd
    simp only [encAux] at hd
    by_cases h0 : n = 0
    · simp [h0] at hd
    · rw [if_neg h0] at hd
      rcases List.mem_cons.mp hd with h | h
      · omega
      · exact ih (n / 10) d h

theorem encAux_ne_nil (n : Nat) (h : 0 < n) : encAux n n ≠ [] := by
  cases n with
  | zero => omega
  | succ m =>
    simp only [encAux]
    rw [if_neg (by omega)]
    exact List.cons_ne_nil _ _

theorem foldl_rev_ofD : ∀ (ds : List Nat) (a : Nat),
    ds.reverse.foldl (fun x d => x * 10 + d) a = a * 10 ^ ds.length + ofD ds := by
  intro ds
  induction ds with
  | nil =>
    intro a
    simp [ofD]
  | cons d ds ih =>
    intro a
    simp only [List.reverse_cons, List.foldl_append, ih, List.foldl_cons, List.foldl_nil,
      ofD, List.length_cons]
    ring

theorem foldlM_digits : ∀ (ds : List Nat) (a : Nat), (∀ d ∈ ds, d < 10) →
    (ds.map Nat.digitChar).foldlM (fun a c => (charDigit c).map (fun d => a * 10 + d)) a
      = some (ds.foldl (fun x d => x * 10 + d) a) := by
  intro ds
  induction ds with
  | nil =>
    intro a _
    rfl
  | cons d ds ih =>
    intro a hd
    have h1 : d < 10 := hd d (List.mem_cons_self d ds)
    simp only [List.map_cons, List.foldlM_cons, charDigit_digitChar d h1, Option.map_some,
      Option.bind_eq_bind, Option.some_bind]
    exact ih (a * 10 + d) (fun x hx => hd x (List.mem_cons_of_mem d hx))

theorem decNat_encNat (n : Nat) : decNat (encNat n) = some n := by
  by_cases h0 : n = 0
  · subst h0
    decide
  · have hne : encAux n n ≠ [] := encAux_ne_nil n (by omega)
    obtain ⟨d, ds, hds⟩ : ∃ d ds, encAux n n = d :: ds := by
      cases hx : encAux n n with
      | nil => exact absurd hx hne
      | cons d ds => exact ⟨d, ds, rfl⟩
    have hmap : encNat n = ((encAux n n).reverse).map Nat.digitChar := by
      simp [encNat, h0]
    have hnil : encNat n ≠ [] := by
      rw [hmap, hds]
      simp
    have hstep : decNat (encNat n)
        = (encNat n).foldlM (fun a c => (charDigit c).map (fun d => a * 10 + d)) 0 := by
      cases hx : encNat n with
      | nil => exact absurd hx hnil
      | cons c cs => simp [decNat]
    rw [hstep, hmap]
    rw [foldlM_digits ((encAux n n).reverse) 0
      (fun d hd => encAux_digits n n d (List.mem_reverse.mp hd))]
    rw [foldl_rev_ofD, encAux_ofD n n (Nat.le_refl n)]
    simp

/-! ## Helper lemmas: line splitting and joining -/

theorem lines0_ne_nil (s : Str) : lines0 s ≠ [] := by
  induction s with
  | nil => simp [lines0]
  | cons c r ih =>
    have h1 : lines0 (c :: r) = linesF c (lines0 r) := rfl
    rw [h1]
    cases h : lines0 r with
    | nil => exact absurd h ih
    | cons l ls =>
      unfold linesF
      split
      · simp
      · simp

theorem lines0_cons_eq (c : Char) (r l : Str) (ls : List Str) (h : lines0 r = l :: ls) :
    lines0 (c :: r) = if c = '\n' then [] :: l :: ls else (c :: l) :: ls := by
  have h1 : lines0 (c :: r) = linesF c (lines0 r) := rfl
  rw [h1, h]
  unfold linesF
  split
  · rfl
  · rfl

theorem lines0_dest (r : Str) : ∃ l ls, lines0 r = l :: ls := by
  cases h : lines0 r with
  | nil => exact absurd h (lines0_ne_nil r)
  | cons l ls => exact ⟨l, ls, rfl⟩

theorem lines0_seed (a : Str) (t : List Str) :
    a.foldr linesF ([] :: t) = lines0 a ++ t := by
  induction a with
  | nil => simp [lines0]
  | cons c r ih =>
    obtain ⟨l, ls, h⟩ := lines0_dest r
    have h2 : (c :: r).foldr linesF ([] :: t) = linesF c (r.foldr linesF ([] :: t)) := rfl
    rw [h2, ih, h]
    rw [lines0_cons_eq c r l ls h]
    unfold linesF
    split
    · simp
    · simp

theorem lines0_append_nl (a b : Str) :
    lines0 (a ++ '\n' :: b) = lines0 a ++ lines0 b := by
  have h1 : lines0 (a ++ '\n' :: b) = a.foldr linesF (lines0 ('\n' :: b)) := by
    simp [lines0, List.foldr_append]
  have h2 : lines0 ('\n' :: b) = [] :: lines0 b := by
    obtain ⟨l, ls, h⟩ := lines0_dest b
    rw [lines0_cons_eq '\n' b l ls h, if_pos rfl, h]
  rw [h1, h2, lines0_seed]

theorem lines0_no_nl (l : Str) (h : '\n' ∉ l) : lines0 l = [l] := by
  induction l with
  | nil => rfl
  | cons c r ih =>
    have hc : c ≠ '\n' := fun hc => h (hc ▸ List.mem_cons_self c r)
    have hr : '\n' ∉ r := fun hr => h (List.mem_cons_of_mem c hr)
    rw [lines0_cons_eq c r r [] (ih hr), if_neg hc]

theorem lines0_unlinesN (ls : List Str) (r : Str) (h : ∀ l ∈ ls, '\n' ∉ l) :
    lines0 (unlinesN ls ++ r) = ls ++ lines0 r := by
  induction ls with
  | nil => simp [unlinesN]
  | cons l ls ih =>
    have h1 : unlinesN (l :: ls) ++ r = l ++ '\n' :: (unlinesN ls ++ r) := by
      simp [unlinesN]
    rw [h1, lines0_append_nl, ih (fun x hx => h x (List.mem_cons_of_mem l hx)),
      lines0_no_nl l (h l (List.mem_cons_self l ls))]
    simp

theorem interN_lines0 (s : Str) : interN (lines0 s) = s := by
  induction s with
  | nil => rfl
  | cons c r ih =>
    obtain ⟨l, ls, h⟩ := lines0_dest r
    rw [lines0_cons_eq c r l ls h]
    rw [h] at ih
    by_cases hc : c = '\n'
    · rw [if_pos hc, hc]
      cases ls with
      | nil =>
        simp only [interN] at *
        rw [ih]
        rfl
      | cons l2 ls2 =>
        simp only [interN] at *
        rw [ih]
        rfl
    · rw [if_neg hc]
      cases ls with
      | nil =>
        simp only [interN] at *
        rw [ih]
      | cons l2 ls2 =>
        simp only [interN] at *
        rw [List.cons_append, ih]

theorem lines0_interN (ls : List Str) (h0 : ls ≠ []) (h : ∀ l ∈ ls, '\n' ∉ l) :
    lines0 (interN ls) = ls := by
  induction ls with
  | nil => exact absurd rfl h0
  | cons l ls ih =>
    cases ls with
    | nil =>
      simp only [interN]
      exact lines0_no_nl l (h l (List.mem_cons_self l []))
    | cons l2 ls2 =>
      have h1 : interN (l :: l2 :: ls2) = l ++ '\n' :: interN (l2 :: ls2) := rfl
      rw [h1, lines0_append_nl, lines0_no_nl l (h l (List.mem_cons_self l _)),
        ih (List.cons_ne_nil l2 ls2) (fun x hx => h x (List.mem_cons_of_mem l hx))]
      rfl

/-! ## Helper lemmas: trimming -/

theorem dropWhile_eq_self_of_head (p : Char → Bool) (l : Str)
    (h : ∀ c, l.head? = some c → p c = false) : l.dropWhile p = l := by
  cases l with
  | nil => rfl
  | cons c r => simp [List.dropWhile_cons, h c rfl]

theorem trimS_eq_self (s : Str)
    (h1 : ∀ c, s.head? = some c → isSpc c = false)
    (h2 : ∀ c, s.getLast? = some c → isSpc c = false) : trimS s = s := by
  unfold trimS
  rw [dropWhile_eq_self_of_head isSpc s h1]
  rw [dropWhile_eq_self_of_head isSpc s.reverse (by simpa using h2)]
  exact List.reverse_reverse s

theorem trimS_cons_spc (c : Char) (s : Str) (h : isSpc c = true) :
    trimS (c :: s) = trimS s := by
  simp [trimS, List.dropWhile_cons, h]

/-! ## Helper lemmas: scalars and key lines -/

theorem splitColon_append (a b : Str) (h : ':' ∉ a) :
    splitColon (a ++ ':' :: b) = some (a, b) := by
  induction a with
  | nil => simp [splitColon]
  | cons c r ih =>
    have hc : c ≠ ':' := fun hc => h (hc ▸ List.mem_cons_self c r)
    have hr : ':' ∉ r := fun hr => h (List.mem_cons_of_mem c hr)
    simp [splitColon, hc, ih hr]

theorem simple_mem (s : Str) (h : simpleScalar s = true) :
    ∀ c ∈ s, okScalarChar c = true := by
  intro c hc
  simp only [simpleScalar, Bool.and_eq_true, List.all_eq_true] at h
  exact h.1.1.2 c hc

theorem okScalar_facts (c : Char) (h : okScalarChar c = true) :
    c ≠ ':' ∧ c ≠ '\n' ∧ c ≠ '\r' ∧ (c ≠ ' ' → isSpc c = false) := by
  simp only [okScalarChar, Bool.and_eq_true, Bool.not_eq_true', beq_eq_false_iff_ne,
    Bool.or_eq_true, beq_iff_eq] at h
  refine ⟨h.1.1, ?_, ?_, ?_⟩
  · intro hc
    subst hc
    rcases h.2 with h2 | h2
    · exact absurd h2 (by decide)
    · exact absurd h2 (by decide)
  · intro hc
    subst hc
    rcases h.2 with h2 | h2
    · exact absurd h2 (by decide)
    · exact absurd h2 (by decide)
  · intro hne
    rcases h.2 with h2 | h2
    · exact absurd h2 hne
    · exact h2

theorem simple_ne_nil (s : Str) (h : simpleScalar s = true) : s ≠ [] := by
  simp only [simpleScalar, Bool.and_eq_true] at h
  have h1 := h.1.1.1
  intro hs
  subst hs
  exact absurd h1 (by decide)

theorem mem_of_head? (l : Str) (c : Char) (h : l.head? = some c) : c ∈ l := by
  cases l with
  | nil => simp at h
  | cons a t =>
    simp only [List.head?_cons, Option.some.injEq] at h
    exact h ▸ List.mem_cons_self a t

theorem mem_of_getLast? (l : Str) (c : Char) (h : l.getLast? = some c) : c ∈ l := by
  have h1 : l.reverse.head? = some c := by
    rw [List.head?_reverse]
    exact h
  exact List.mem_reverse.mp (mem_of_head? l.reverse c h1)

theorem simple_head_not_spc (s : Str) (h : simpleScalar s = true) :
    ∀ c, s.head? = some c → isSpc c = false := by
  intro c hc
  have hok := simple_mem s h c (mem_of_head? s c hc)
  have hsp : c ≠ ' ' := by
    simp only [simpleScalar, Bool.and_eq_true, bne_iff_ne] at h
    intro he
    exact h.1.2 (he ▸ hc)
  exact (okScalar_facts c hok).2.2.2 hsp

theorem simple_last_not_spc (s : Str) (h : simpleScalar s = true) :
    ∀ c, s.getLast? = some c → isSpc c = false := by
  intro c hc
  have hok := simple_mem s h c (mem_of_getLast? s c hc)
  have hsp : c ≠ ' ' := by
    simp only [simpleScalar, Bool.and_eq_true, bne_iff_ne] at h
    intro he
    exact h.2 (he ▸ hc)
  exact (okScalar_facts c hok).2.2.2 hsp

theorem trimS_simple (s : Str) (h : simpleScalar s = true) : trimS s = s :=
  trimS_eq_self s (simple_head_not_spc s h) (simple_last_not_spc s h)

theorem simple_no_colon (s : Str) (h : simpleScalar s = true) : ':' ∉ s := by
  intro hc
  exact absurd rfl (okScalar_facts ':' (simple_mem s h ':' hc)).1

theorem simple_no_nl (s : Str) (h : simpleScalar s = true) : '\n' ∉ s := by
  intro hc
  exact absurd rfl (okScalar_facts '\n' (simple_mem s h '\n' hc)).2.1

theorem simple_no_cr_last (s : Str) (h : simpleScalar s = true) :
    s.getLast? ≠ some '\r' := by
  intro hc
  exact absurd rfl (okScalar_facts '\r' (simple_mem s h '\r' (mem_of_getLast? s '\r' hc))).2.2.1

theorem encNat_mem (n : Nat) (c : Char) (h : c ∈ encNat n) :
    ∃ d, d < 10 ∧ c = Nat.digitChar d := by
  by_cases h0 : n = 0
  · subst h0
    have he : encNat 0 = ['0'] := rfl
    rw [he, List.mem_singleton] at h
    exact ⟨0, by omega, h⟩
  · simp only [encNat, if_neg h0, List.mem_map, List.mem_reverse] at h
    obtain ⟨d, hd, hc⟩ := h
    exact ⟨d, encAux_digits n n d hd, hc.symm⟩

theorem encNat_simple (n : Nat) : simpleScalar (encNat n) = true := by
  have hmem : ∀ c ∈ encNat n, okScalarChar c = true ∧ c ≠ ' ' := by
    intro c hc
    obtain ⟨d, hd, he⟩ := encNat_mem n c hc
    subst he
    have := digit_simple d hd
    exact ⟨this.1, this.2.2.1⟩
  have hne : encNat n ≠ [] := by
    by_cases h0 : n = 0
    · subst h0
      decide
    · simp only [encNat, if_neg h0]
      have := encAux_ne_nil n (by omega)
      intro hx
      rw [List.map_eq_nil_iff, List.reverse_eq_nil_iff] at hx
      exact this hx
  simp only [simpleScalar, Bool.and_eq_true, List.all_eq_true, bne_iff_ne]
  refine ⟨⟨⟨?_, fun c hc => (hmem c hc).1⟩, ?_⟩, ?_⟩
  · cases hx : encNat n with
    | nil => exact absurd hx hne
    | cons a t => simp
  · intro hx
    exact absurd rfl (hmem ' ' (mem_of_head? _ _ hx)).2
  · intro hx
    exact absurd rfl (hmem ' ' (mem_of_getLast? _ _ hx)).2

theorem parseLine_title (r : RawFM) (ctx : YCtx) (s : Str) (hs : simpleScalar s = true) :
    parseLine (r, ctx) (strOf "title: " ++ s) = Except.ok ({ r with title := some s }, YCtx.top) := by
  have hsne : s ≠ [] := simple_ne_nil s hs
  have htrim : trimS (strOf "title: " ++ s) = strOf "title: " ++ s := by
    apply trimS_eq_self
    · intro c hc
      have hL : (strOf "title: " ++ s).head? = some 't' := rfl
      rw [hL, Option.some.injEq] at hc
      subst hc
      decide
    · intro c hc
      rw [List.getLast?_append_of_ne_nil (strOf "title: ") hsne] at hc
      exact simple_last_not_spc s hs c hc
  have hsplit : splitColon (strOf "title: " ++ s) = some (strOf "title", ' ' :: s) := by
    have h1 : strOf "title: " ++ s = strOf "title" ++ ':' :: (' ' :: s) := rfl
    rw [h1]
    exact splitColon_append (strOf "title") (' ' :: s) (by decide)
  have hv : trimS (' ' :: s) = s := by
    rw [trimS_cons_spc ' ' s (by decide), trimS_simple s hs]
  simp only [parseLine, htrim, hsplit, hv]
  have hne2 : ¬ (strOf "title: " ++ s = []) := by
    intro hx
    exact List.cons_ne_nil 't' _ hx
  rw [if_neg hne2]
  have hb : (startsW (strOf "- ") (strOf "title: " ++ s)
      || decide (strOf "title: " ++ s = ['-'])) = false := rfl
  rw [hb]
  simp

theorem parseLine_tagsKey (r : RawFM) (ctx : YCtx) :
    parseLine (r, ctx) (strOf "tags:") = Except.ok (r, YCtx.tagsSeq) := rfl

theorem parseLine_blank (st : RawFM × YCtx) : parseLine st [] = Except.ok st := rfl

theorem parseLine_item (r : RawFM) (tg : Str) (hs : simpleScalar tg = true) :
    parseLine (r, YCtx.tagsSeq) (strOf "    - " ++ tg)
      = Except.ok ({ r with tags := some ((r.tags.getD []) ++ [tg]) }, YCtx.tagsSeq) := by
  have hsne : tg ≠ [] := simple_ne_nil tg hs
  have htrim : trimS (strOf "    - " ++ tg) = '-' :: ' ' :: tg := by
    have h1 : strOf "    - " ++ tg = ' ' :: ' ' :: ' ' :: ' ' :: ('-' :: ' ' :: tg) := rfl
    rw [h1, trimS_cons_spc _ _ (by decide), trimS_cons_spc _ _ (by decide),
      trimS_cons_spc _ _ (by decide), trimS_cons_spc _ _ (by decide)]
    apply trimS_eq_self
    · intro c hc
      simp only [List.head?_cons, Option.some.injEq] at hc
      subst hc
      decide
    · intro c hc
      have h2 : '-' :: ' ' :: tg = ['-', ' '] ++ tg := rfl
      rw [h2, List.getLast?_append_of_ne_nil ['-', ' '] hsne] at hc
      exact simple_last_not_spc tg hs c hc
  simp only [parseLine, htrim]
  have hne2 : ¬ ('-' :: ' ' :: tg = []) := List.cons_ne_nil '-' _
  rw [if_neg hne2]
  have hb : (startsW (strOf "- ") ('-' :: ' ' :: tg)
      || decide ('-' :: ' ' :: tg = ['-'])) = true := by
    have h1 : startsW (strOf "- ") ('-' :: ' ' :: tg) = true := rfl
    rw [h1]
    rfl
  rw [hb]
  have hdrop : ('-' :: ' ' :: tg).drop 2 = tg := rfl
  simp only [if_pos rfl, hdrop, trimS_simple tg hs]
  rfl

theorem parseLine_created (r : RawFM) (ctx : YCtx) (n : Nat) :
    parseLine (r, ctx) (strOf "created: " ++ encNat n)
      = Except.ok ({ r with created := some n }, YCtx.top) := by
  have hs : simpleScalar (encNat n) = true := encNat_simple n
  have hsne : encNat n ≠ [] := simple_ne_nil _ hs
  have htrim : trimS (strOf "created: " ++ encNat n) = strOf "created: " ++ encNat n := by
    apply trimS_eq_self
    · intro c hc
      have hL : (strOf "created: " ++ encNat n).head? = some 'c' := rfl
      rw [hL, Option.some.injEq] at hc
      subst hc
      decide
    · intro c hc
      rw [List.getLast?_append_of_ne_nil (strOf "created: ") hsne] at hc
      exact simple_last_not_spc _ hs c hc
  have hsplit : splitColon (strOf "created: " ++ encNat n)
      = some (strOf "created", ' ' :: encNat n) := by
    have h1 : strOf "created: " ++ encNat n = strOf "created" ++ ':' :: (' ' :: encNat n) := rfl
    rw [h1]
    exact splitColon_append (strOf "created") (' ' :: encNat n) (by decide)
  have hv : trimS (' ' :: encNat n) = encNat n := by
    rw [trimS_cons_spc _ _ (by decide), trimS_simple _ hs]
  simp only [parseLine, htrim, hsplit, hv]
  have hne2 : ¬ (strOf "created: " ++ encNat n = []) := by
    intro hx
    exact List.cons_ne_nil 'c' _ hx
  rw [if_neg hne2]
  have hb : (startsW (strOf "- ") (strOf "created: " ++ encNat n)
      || decide (strOf "created: " ++ encNat n = ['-'])) = false := rfl
  rw [hb]
  simp [decNat_encNat n]
  rw [if_neg (by decide), if_neg (by decide)]

theorem parseLine_updated (r : RawFM) (ctx : YCtx) (n : Nat) :
    parseLine (r, ctx) (strOf "updated: " ++ encNat n)
      = Except.ok ({ r with updated := some n }, YCtx.top) := by
  have hs : simpleScalar (encNat n) = true := encNat_simple n
  have hsne : encNat n ≠ [] := simple_ne_nil _ hs
  have htrim : trimS (strOf "updated: " ++ encNat n) = strOf "updated: " ++ encNat n := by
    apply trimS_eq_self
    · intro c hc
      have hL : (strOf "updated: " ++ encNat n).head? = some 'u' := rfl
      rw [hL, Option.some.injEq] at hc
      subst hc
      decide
    · intro c hc
      rw [List.getLast?_append_of_ne_nil (strOf "updated: ") hsne] at hc
      exact simple_last_not_spc _ hs c hc
  have hsplit : splitColon (strOf "updated: " ++ encNat n)
      = some (strOf "updated", ' ' :: encNat n) := by
    have h1 : strOf "updated: " ++ encNat n = strOf "updated" ++ ':' :: (' ' :: encNat n) := rfl
    rw [h1]
    exact splitColon_append (strOf "updated") (' ' :: encNat n) (by decide)
  have hv : trimS (' ' :: encNat n) = encNat n := by
    rw [trimS_cons_spc _ _ (by decide), trimS_simple _ hs]
  simp only [parseLine, htrim, hsplit, hv]
  have hne2 : ¬ (strOf "updated: " ++ encNat n = []) := by
    intro hx
    exact List.cons_ne_nil 'u' _ hx
  rw [if_neg hne2]
  have hb : (startsW (strOf "- ") (strOf "updated: " ++ encNat n)
      || decide (strOf "updated: " ++ encNat n = ['-'])) = false := rfl
  rw [hb]
  simp [decNat_encNat n]
  rw [if_neg (by decide), if_neg (by decide), if_neg (by decide)]

theorem exc_bind_ok {a b : Type} (x : a) (f : a → Except Unit b) :
    (Except.ok x >>= f) = f x := rfl

theorem fold_items (tgs : List Str) (hs : ∀ tg ∈ tgs, simpleScalar tg = true)
    (r : RawFM) (acc : List Str) (rest : List Str) :
    (tgs.map (fun tg => strOf "    - " ++ tg) ++ rest).foldlM parseLine
        ({ r with tags := some acc }, YCtx.tagsSeq)
      = rest.foldlM parseLine ({ r with tags := some (acc ++ tgs) }, YCtx.tagsSeq) := by
  induction tgs generalizing acc with
  | nil => simp
  | cons tg tgs ih =>
    simp only [List.map_cons, List.cons_append, List.foldlM_cons]
    rw [parseLine_item _ tg (hs tg (List.mem_cons_self tg tgs))]
    rw [exc_bind_ok]
    have h1 : ({ r with tags := some acc } : RawFM).tags.getD [] = acc := rfl
    rw [h1]
    have h2 : ({ ({ r with tags := some acc } : RawFM) with tags := some (acc ++ [tg]) } : RawFM)
        = { r with tags := some (acc ++ [tg]) } := rfl
    rw [h2, ih (fun x hx => hs x (List.mem_cons_of_mem tg hx)) (acc ++ [tg])]
    rw [List.append_assoc, List.singleton_append]

theorem yamlUnmarshal_fmLines (t : GoTicket)
    (h1 : simpleScalar t.title = true)
    (h2 : ∀ tg ∈ t.tags, simpleScalar tg = true)
    (hnl : ∀ l ∈ fmLinesOf t, '\n' ∉ l) :
    yamlUnmarshal (interN (fmLinesOf t))
      = Except.ok
          ⟨some t.title, if t.tags = [] then none else some t.tags,
            some t.created, some t.updated⟩ := by
  have hne : fmLinesOf t ≠ [] := List.cons_ne_nil _ _
  have hl0 : lines0 (interN (fmLinesOf t)) = fmLinesOf t := lines0_interN _ hne hnl
  unfold yamlUnmarshal
  rw [hl0]
  unfold fmLinesOf
  by_cases htags : t.tags = []
  · rw [if_pos htags, if_pos htags]
    simp only [List.nil_append, List.foldlM_cons]
    rw [parseLine_title rawEmpty YCtx.top t.title h1, exc_bind_ok]
    rw [parseLine_created _ YCtx.top t.created, exc_bind_ok]
    rw [parseLine_updated _ YCtx.top t.updated, exc_bind_ok]
    rfl
  · rw [if_neg htags, if_neg htags]
    obtain ⟨tg, tgs, hts⟩ : ∃ tg tgs, t.tags = tg :: tgs := by
      cases hx : t.tags with
      | nil => exact absurd hx htags
      | cons a b => exact ⟨a, b, rfl⟩
    rw [hts]
    simp only [List.map_cons, List.cons_append, List.foldlM_cons]
    rw [parseLine_title rawEmpty YCtx.top t.title h1, exc_bind_ok]
    rw [parseLine_tagsKey _ YCtx.top, exc_bind_ok]
    have hstg : ∀ x ∈ t.tags, simpleScalar x = true := h2
    rw [hts] at hstg
    rw [parseLine_item _ tg (hstg tg (List.mem_cons_self tg tgs)), exc_bind_ok]
    have h3 : (({ rawEmpty with title := some t.title } : RawFM).tags.getD []) = [] := rfl
    rw [h3]
    have h4 : ({ ({ rawEmpty with title := some t.title } : RawFM) with
        tags := some ([] ++ [tg]) } : RawFM)
        = { ({ rawEmpty with title := some t.title } : RawFM) with tags := some [tg] } := rfl
    rw [h4]
    rw [fold_items tgs (fun x hx => hstg x (List.mem_cons_of_mem tg hx)) _ [tg] _]
    simp only [List.foldlM_cons]
    rw [parseLine_created _ YCtx.tagsSeq t.created, exc_bind_ok]
    rw [parseLine_updated _ YCtx.top t.updated, exc_bind_ok]
    rfl

theorem title_line_good (s : Str) (hs : simpleScalar s = true) :
    '\n' ∉ strOf "title: " ++ s ∧ dropCR (strOf "title: " ++ s) = strOf "title: " ++ s ∧
      trimS (strOf "title: " ++ s) ≠ dashesS := by
  have hsne : s ≠ [] := simple_ne_nil s hs
  have hlast : (strOf "title: " ++ s).getLast? = s.getLast? :=
    List.getLast?_append_of_ne_nil (strOf "title: ") hsne
  refine ⟨?_, ?_, ?_⟩
  · intro hmem
    rcases List.mem_append.mp hmem with h | h
    · exact absurd h (by decide)
    · exact simple_no_nl s hs h
  · unfold dropCR
    rw [hlast]
    rw [if_neg (simple_no_cr_last s hs)]
  · have htrim : trimS (strOf "title: " ++ s) = strOf "title: " ++ s := by
      apply trimS_eq_self
      · intro c hc
        have hL : (strOf "title: " ++ s).head? = some 't' := rfl
        rw [hL, Option.some.injEq] at hc
        subst hc
        decide
      · intro c hc
        rw [hlast] at hc
        exact simple_last_not_spc s hs c hc
    rw [htrim]
    intro hx
    have : 't' = '-' := by
      have := congrArg List.head? hx
      simp only [List.head?_cons] at this
      exact Option.some.inj (by exact this)
    exact absurd this (by decide)

theorem created_line_good (n : Nat) :
    '\n' ∉ strOf "created: " ++ encNat n ∧
      dropCR (strOf "created: " ++ encNat n) = strOf "created: " ++ encNat n ∧
      trimS (strOf "created: " ++ encNat n) ≠ dashesS := by
  have hs : simpleScalar (encNat n) = true := encNat_simple n
  have hsne : encNat n ≠ [] := simple_ne_nil _ hs
  have hlast : (strOf "created: " ++ encNat n).getLast? = (encNat n).getLast? :=
    List.getLast?_append_of_ne_nil (strOf "created: ") hsne
  refine ⟨?_, ?_, ?_⟩
  · intro hmem
    rcases List.mem_append.mp hmem with h | h
    · exact absurd h (by decide)
    · exact simple_no_nl _ hs h
  · unfold dropCR
    rw [hlast, if_neg (simple_no_cr_last _ hs)]
  · have htrim : trimS (strOf "created: " ++ encNat n) = strOf "created: " ++ encNat n := by
      apply trimS_eq_self
      · intro c hc
        have hL : (strOf "created: " ++ encNat n).head? = some 'c' := rfl
        rw [hL, Option.some.injEq] at hc
        subst hc
        decide
      · intro c hc
        rw [hlast] at hc
        exact simple_last_not_spc _ hs c hc
    rw [htrim]
    intro hx
    have h1 : 'c' = '-' := by
      have := congrArg List.head? hx
      simp only [List.head?_cons] at this
      exact Option.some.inj (by exact this)
    exact absurd h1 (by decide)

theorem updated_line_good (n : Nat) :
    '\n' ∉ strOf "updated: " ++ encNat n ∧
      dropCR (strOf "updated: " ++ encNat n) = strOf "updated: " ++ encNat n ∧
      trimS (strOf "updated: " ++ encNat n) ≠ dashesS := by
  have hs : simpleScalar (encNat n) = true := encNat_simple n
  have hsne : encNat n ≠ [] := simple_ne_nil _ hs
  have hlast : (strOf "updated: " ++ encNat n).getLast? = (encNat n).getLast? :=
    List.getLast?_append_of_ne_nil (strOf "updated: ") hsne
  refine ⟨?_, ?_, ?_⟩
  · intro hmem
    rcases List.mem_append.mp hmem with h | h
    · exact absurd h (by decide)
    · exact simple_no_nl _ hs h
  · unfold dropCR
    rw [hlast, if_neg (simple_no_cr_last _ hs)]
  · have htrim : trimS (strOf "updated: " ++ encNat n) = strOf "updated: " ++ encNat n := by
      apply trimS_eq_self
      · intro c hc
        have hL : (strOf "updated: " ++ encNat n).head? = some 'u' := rfl
        rw [hL, Option.some.injEq] at hc
        subst hc
        decide
      · intro c hc
        rw [hlast] at hc
        exact simple_last_not_spc _ hs c hc
    rw [htrim]
    intro hx
    have h1 : 'u' = '-' := by
      have := congrArg List.head? hx
      simp only [List.head?_cons] at this
      exact Option.some.inj (by exact this)
    exact absurd h1 (by decide)

theorem item_line_good (tg : Str) (hs : simpleScalar tg = true) :
    '\n' ∉ strOf "    - " ++ tg ∧
      dropCR (strOf "    - " ++ tg) = strOf "    - " ++ tg ∧
      trimS (strOf "    - " ++ tg) ≠ dashesS := by
  have hsne : tg ≠ [] := simple_ne_nil tg hs
  have hlast : (strOf "    - " ++ tg).getLast? = tg.getLast? :=
    List.getLast?_append_of_ne_nil (strOf "    - ") hsne
  refine ⟨?_, ?_, ?_⟩
  · intro hmem
    rcases List.mem_append.mp hmem with h | h
    · exact absurd h (by decide)
    · exact simple_no_nl tg hs h
  · unfold dropCR
    rw [hlast, if_neg (simple_no_cr_last tg hs)]
  · have htrim : trimS (strOf "    - " ++ tg) = '-' :: ' ' :: tg := by
      have h1 : strOf "    - " ++ tg = ' ' :: ' ' :: ' ' :: ' ' :: ('-' :: ' ' :: tg) := rfl
      rw [h1, trimS_cons_spc _ _ (by decide), trimS_cons_spc _ _ (by decide),
        trimS_cons_spc _ _ (by decide), trimS_cons_spc _ _ (by decide)]
      apply trimS_eq_self
      · intro c hc
        simp only [List.head?_cons, Option.some.injEq] at hc
        subst hc
        decide
      · intro c hc
        have h2 : '-' :: ' ' :: tg = ['-', ' '] ++ tg := rfl
        rw [h2, List.getLast?_append_of_ne_nil ['-', ' '] hsne] at hc
        exact simple_last_not_spc tg hs c hc
    rw [htrim]
    intro hx
    have h1 : (' ' :: tg).head? = (['-', '-'] : Str).head? := by
      have h2 := congrArg List.tail hx
      simp only [List.tail_cons] at h2
      rw [h2]
      rfl
    simp only [List.head?_cons, Option.some.injEq] at h1
    exact absurd h1 (by decide)

theorem fmLines_good (t : GoTicket)
    (h1 : simpleScalar t.title = true)
    (h2 : ∀ tg ∈ t.tags, simpleScalar tg = true) :
    ∀ l ∈ fmLinesOf t, '\n' ∉ l ∧ dropCR l = l ∧ trimS l ≠ dashesS := by
  intro l hl
  unfold fmLinesOf at hl
  rcases List.mem_cons.mp hl with h | h
  · subst h
    exact title_line_good t.title h1
  · rcases List.mem_append.mp h with h | h
    · by_cases htags : t.tags = []
      · rw [if_pos htags] at h
        simp at h
      · rw [if_neg htags] at h
        rcases List.mem_cons.mp h with h | h
        · subst h
          exact ⟨by decide, by decide, by decide⟩
        · obtain ⟨tg, htg, he⟩ := List.mem_map.mp h
          subst he
          exact item_line_good tg (h2 tg htg)
    · rcases List.mem_cons.mp h with h | h
      · subst h
        exact created_line_good t.created
      · rcases List.mem_cons.mp h with h | h
        · subst h
          exact updated_line_good t.updated
        · simp at h

theorem map_dropCR_id (ls : List Str) (h : ∀ l ∈ ls, dropCR l = l) :
    ls.map dropCR = ls := by
  rw [List.map_congr_left h]
  exact List.map_id ls

theorem goLines_toMarkdown (t : GoTicket)
    (hfm : ∀ l ∈ fmLinesOf t, '\n' ∉ l ∧ dropCR l = l)
    (hbody : ∀ l ∈ lines0 t.content, dropCR l = l) :
    goLines (toMarkdown t)
      = (dashesS :: fmLinesOf t ++ [dashesS, []]) ++
          (if t.content = [] then [] else lines0 t.content) := by
  have hLnl : ∀ l ∈ dashesS :: fmLinesOf t ++ [dashesS, []], '\n' ∉ l := by
    intro l hl
    rcases List.mem_cons.mp hl with h | h
    · subst h
      decide
    · rcases List.mem_append.mp h with h | h
      · exact (hfm l h).1
      · rcases List.mem_cons.mp h with h | h
        · subst h
          decide
        · rcases List.mem_cons.mp h with h | h
          · subst h
            decide
          · simp at h
  have hLcr : ∀ l ∈ dashesS :: fmLinesOf t ++ [dashesS, []], dropCR l = l := by
    intro l hl
    rcases List.mem_cons.mp hl with h | h
    · subst h
      decide
    · rcases List.mem_append.mp h with h | h
      · exact (hfm l h).2
      · rcases List.mem_cons.mp h with h | h
        · subst h
          decide
        · rcases List.mem_cons.mp h with h | h
          · subst h
            decide
          · simp at h
  have hne : toMarkdown t ≠ [] := by
    intro hx
    have h1 : toMarkdown t = '-' ::
        ('-' :: '-' :: '\n' :: (unlinesN (fmLinesOf t ++ [dashesS, []]) ++
          (if t.content = [] then [] else t.content ++ ['\n']))) := rfl
    rw [h1] at hx
    exact List.cons_ne_nil _ _ hx
  have hl0 : lines0 (toMarkdown t)
      = ((dashesS :: fmLinesOf t ++ [dashesS, []]) ++
          (if t.content = [] then [] else lines0 t.content)) ++ [[]] := by
    unfold toMarkdown
    by_cases hc : t.content = []
    · rw [if_pos hc, List.append_nil]
      have h2 : unlinesN (dashesS :: fmLinesOf t ++ [dashesS, []])
          = unlinesN (dashesS :: fmLinesOf t ++ [dashesS, []]) ++ [] := by
        rw [List.append_nil]
      rw [h2, lines0_unlinesN _ [] hLnl, if_pos hc, List.append_nil]
      rfl
    · rw [if_neg hc, if_neg hc]
      have h2 : t.content ++ ['\n'] = t.content ++ '\n' :: [] := rfl
      rw [lines0_unlinesN _ _ hLnl, h2, lines0_append_nl]
      have h3 : lines0 ([] : Str) = [[]] := rfl
      rw [h3]
      simp [List.append_assoc]
  unfold goLines
  rw [if_neg hne, hl0]
  rw [List.getLast?_concat, if_pos rfl, List.dropLast_concat]
  apply map_dropCR_id
  intro l hl
  rcases List.mem_append.mp hl with h | h
  · exact hLcr l h
  · by_cases hc : t.content = []
    · rw [if_pos hc] at h
      simp at h
    · rw [if_neg hc] at h
      exact hbody l h

theorem splitFM_false_cons (l : Str) (ls : List Str) :
    splitFMLines false (l :: ls)
      = if trimS l = dashesS then splitFMLines true ls
        else ((splitFMLines false ls).1, l :: (splitFMLines false ls).2) := rfl

theorem splitFM_true_cons (l : Str) (ls : List Str) :
    splitFMLines true (l :: ls)
      = if trimS l = dashesS then splitFMLines false ls
        else (l :: (splitFMLines true ls).1, (splitFMLines true ls).2) := rfl

theorem splitFM_pass_false (cs : List Str) (h : ∀ l ∈ cs, trimS l ≠ dashesS) :
    splitFMLines false cs = ([], cs) := by
  induction cs with
  | nil => rfl
  | cons l ls ih =>
    rw [splitFM_false_cons, if_neg (h l (List.mem_cons_self l ls))]
    rw [ih (fun x hx => h x (List.mem_cons_of_mem l hx))]

theorem splitFM_pass_true (fs rest : List Str) (h : ∀ l ∈ fs, trimS l ≠ dashesS) :
    splitFMLines true (fs ++ rest)
      = (fs ++ (splitFMLines true rest).1, (splitFMLines true rest).2) := by
  induction fs with
  | nil => simp
  | cons l ls ih =>
    rw [List.cons_append]
    rw [splitFM_true_cons, if_neg (h l (List.mem_cons_self l ls))]
    rw [ih (fun x hx => h x (List.mem_cons_of_mem l hx))]
    rfl

theorem interN_cons_ne_nil (x : Str) (xs : List Str) (hx : x ≠ []) :
    interN (x :: xs) ≠ [] := by
  cases xs with
  | nil =>
    simp only [interN]
    exact hx
  | cons y ys =>
    have h1 : interN (x :: y :: ys) = x ++ '\n' :: interN (y :: ys) := rfl
    rw [h1]
    intro hx2
    rcases List.append_eq_nil.mp hx2 with ⟨_, h3⟩
    exact List.cons_ne_nil _ _ h3

theorem splitFrontmatter_toMarkdown (t : GoTicket)
    (hfm : ∀ l ∈ fmLinesOf t, '\n' ∉ l ∧ dropCR l = l ∧ trimS l ≠ dashesS)
    (hbody : ∀ l ∈ lines0 t.content, dropCR l = l ∧ trimS l ≠ dashesS) :
    splitFrontmatter (toMarkdown t)
      = (interN (fmLinesOf t),
          interN ([] :: (if t.content = [] then [] else lines0 t.content))) := by
  have hgo := goLines_toMarkdown t (fun l hl => ⟨(hfm l hl).1, (hfm l hl).2.1⟩)
    (fun l hl => (hbody l hl).1)
  unfold splitFrontmatter
  rw [hgo]
  have h1 : (dashesS :: fmLinesOf t ++ [dashesS, []]) ++
      (if t.content = [] then [] else lines0 t.content)
      = dashesS :: (fmLinesOf t ++ ([dashesS, []] ++
          (if t.content = [] then [] else lines0 t.content))) := by
    simp [List.append_assoc]
  rw [h1, splitFM_false_cons, if_pos (by decide)]
  rw [splitFM_pass_true _ _ (fun l hl => (hfm l hl).2.2)]
  have h2 : ([dashesS, []] ++ (if t.content = [] then [] else lines0 t.content))
      = dashesS :: ([] :: (if t.content = [] then [] else lines0 t.content)) := rfl
  rw [h2, splitFM_true_cons, if_pos (by decide)]
  rw [splitFM_pass_false _ ?hcs]
  · simp
  case hcs =>
    intro l hl
    rcases List.mem_cons.mp hl with h | h
    · subst h
      decide
    · by_cases hc : t.content = []
      · rw [if_pos hc] at h
        simp at h
      · rw [if_neg hc] at h
        exact (hbody l h).2

theorem trim_body (content : Str) :
    trimS (interN ([] :: (if content = [] then [] else lines0 content)))
      = trimS content := by
  by_cases hc : content = []
  · rw [if_pos hc, hc]
    rfl
  · rw [if_neg hc]
    obtain ⟨l, ls, h⟩ := lines0_dest content
    rw [h]
    have h1 : interN ([] :: l :: ls) = [] ++ '\n' :: interN (l :: ls) := rfl
    rw [h1, List.nil_append, ← h, interN_lines0]
    exact trimS_cons_spc '\n' content (by decide)

/-- Claim C1, amended. Parsing the serialization of a ticket reproduces the
title, tags, created and updated fields and trims the body, for every ticket
whose title and tags are plain one-line scalars, whose created and updated
timestamps are nonzero, and whose body has no line that ends in a carriage
return or trims to the frontmatter delimiter. -/
theorem parse_toMarkdown_roundtrip (t : GoTicket)
    (h1 : simpleScalar t.title = true)
    (h2 : ∀ tg ∈ t.tags, simpleScalar tg = true)
    (h3 : t.created ≠ 0) (h4 : t.updated ≠ 0)
    (h5 : ∀ l ∈ lines0 t.content, contentLineOk l = true)
    (now : Nat) :
    ∃ r, parseTicketContent (toMarkdown t) now = Except.ok r ∧
      r.title = t.title ∧ r.tags = t.tags ∧ r.created = t.created ∧
      r.updated = t.updated ∧ r.content = trimS t.content := by
  have hfm := fmLines_good t h1 h2
  have hbody : ∀ l ∈ lines0 t.content, dropCR l = l ∧ trimS l ≠ dashesS := by
    intro l hl
    have h6 := h5 l hl
    simp only [contentLineOk, Bool.and_eq_true, bne_iff_ne] at h6
    refine ⟨?_, h6.2⟩
    unfold dropCR
    rw [if_neg h6.1]
  have hsplit := splitFrontmatter_toMarkdown t hfm hbody
  have hfmne : interN (fmLinesOf t) ≠ [] := by
    apply interN_cons_ne_nil
    intro hx
    have h7 : strOf "title: " ++ t.title
        = 't' :: ('i' :: 't' :: 'l' :: 'e' :: ':' :: ' ' :: t.title) := rfl
    rw [h7] at hx
    exact List.cons_ne_nil _ _ hx
  have hraw : rawOf (toMarkdown t)
      = Except.ok ⟨some t.title, if t.tags = [] then none else some t.tags,
          some t.created, some t.updated⟩ := by
    unfold rawOf
    rw [hsplit]
    dsimp only
    rw [if_neg hfmne]
    exact yamlUnmarshal_fmLines t h1 h2 (fun l hl => (hfm l hl).1)
  unfold parseTicketContent
  rw [hraw]
  dsimp only
  simp only [Option.getD_some]
  refine ⟨_, rfl, rfl, ?_, ?_, ?_, ?_⟩
  · by_cases htags : t.tags = []
    · rw [if_pos htags, htags]
      rfl
    · rw [if_neg htags]
      rfl
  · rw [if_neg h3]
  · rw [if_neg h4, if_neg h3]
  · rw [hsplit]
    dsimp only
    exact trim_body t.content

/-- Witness for C1 at a concrete ticket with tags, nonzero timestamps, and a
body with surrounding whitespace. -/
theorem parse_toMarkdown_roundtrip_witness :
    simpleScalar rtTicket.title = true ∧
      (∀ tg ∈ rtTicket.tags, simpleScalar tg = true) ∧
      rtTicket.created ≠ 0 ∧ rtTicket.updated ≠ 0 ∧
      (∀ l ∈ lines0 rtTicket.content, contentLineOk l = true) ∧
      (∃ r, parseTicketContent (toMarkdown rtTicket) 99 = Except.ok r ∧
        r.title = rtTicket.title ∧ r.tags = rtTicket.tags ∧ r.created = rtTicket.created ∧
        r.updated = rtTicket.updated ∧ r.content = trimS rtTicket.content) :=
  ⟨by decide, by decide, by decide, by decide, by decide,
    parse_toMarkdown_roundtrip rtTicket (by decide) (by decide) (by decide) (by decide)
      (by decide) 99⟩

/-- Counterexample to C1 as stated: for the ticket with zero timestamps, the
defaulting policy of the parser rewrites the created field to the current
time, so the round trip does not reproduce it. -/
theorem parse_toMarkdown_zero_created_cex :
    zeroTimeTicket.created = 0 ∧
      (∃ r, parseTicketContent (toMarkdown zeroTimeTicket) 5 = Except.ok r ∧
        r.created = 5 ∧ r.created ≠ zeroTimeTicket.created) :=
  ⟨rfl, ⟨⟨strOf "a", [], 5, 5, strOf "b", [], []⟩, rfl, rfl, by decide⟩⟩

/-- Claim C8. The defaulting policy of ParseTicketContent: whenever the
decoded frontmatter leaves created absent or zero the result takes the
current time, whenever it leaves updated absent or zero the result takes
the created value, and absent tags come out as the empty sequence. -/
theorem parse_defaulting (data : Str) (now : Nat) (raw : RawFM)
    (h : rawOf data = Except.ok raw) :
    ∃ t, parseTicketContent data now = Except.ok t ∧
      (raw.created.getD 0 = 0 → t.created = now) ∧
      (raw.updated.getD 0 = 0 → t.updated = t.created) ∧
      (raw.tags = none → t.tags = []) := by
  unfold parseTicketContent
  rw [h]
  dsimp only
  refine ⟨_, rfl, ?_, ?_, ?_⟩
  · intro h0
    rw [if_pos h0]
  · intro h0
    rw [if_pos h0]
  · intro h0
    rw [h0]
    rfl

/-- Witness for C8 at the empty input, whose frontmatter mentions nothing. -/
theorem parse_defaulting_witness :
    rawOf [] = Except.ok rawEmpty ∧
      (∃ t, parseTicketContent [] 7 = Except.ok t ∧
        (rawEmpty.created.getD 0 = 0 → t.created = 7) ∧
        (rawEmpty.updated.getD 0 = 0 → t.updated = t.created) ∧
        (rawEmpty.tags = none → t.tags = [])) :=
  ⟨rfl, parse_defaulting [] 7 rawEmpty rfl⟩

theorem insertT_length (x : GoTicket) (l : List GoTicket) :
    (insertT x l).length = l.length + 1 := by
  induction l with
  | nil => rfl
  | cons y ys ih =>
    unfold insertT
    split
    · rfl
    · simp only [List.length_cons, ih]

theorem sortTickets_length (l : List GoTicket) : (sortTickets l).length = l.length := by
  induction l with
  | nil => rfl
  | cons x xs ih =>
    unfold sortTickets
    rw [insertT_length, ih]
    rfl

theorem filterMap_length_countP {a b : Type} (f : a → Option b) (l : List a) :
    (l.filterMap f).length = l.countP (fun x => (f x).isSome) := by
  induction l with
  | nil => rfl
  | cons x xs ih =>
    simp only [List.filterMap_cons, List.countP_cons]
    cases hf : f x with
    | none => simp [hf, ih]
    | some y => simp [hf, ih]

/-- Claim C5. Listing a column parses each entry independently: the length
of the result is exactly the number of non-directory entries with the
ticket extension whose parse succeeds (so one malformed file costs exactly
itself, never the listing), and a missing directory yields the empty list
rather than an error. -/
theorem list_column_robust (kanbanDir colDir : Str) (now : Nat) (fs : FS) :
    (∀ entries, lookupDir fs (joinP kanbanDir colDir) = some entries →
      (loadColumnTickets kanbanDir fs colDir now).length
        = entries.countP
            (fun e => (parseEntry (joinP kanbanDir colDir) colDir now e).isSome))
    ∧ (∀ e, (parseEntry (joinP kanbanDir colDir) colDir now e).isSome
        = (!e.isDir && (extOf e.name == mdExt) &&
            (match parseTicketContent e.content now with
             | Except.ok _ => true
             | Except.error _ => false)))
    ∧ (lookupDir fs (joinP kanbanDir colDir) = none →
        loadColumnTickets kanbanDir fs colDir now = []) := by
  refine ⟨?_, ?_, ?_⟩
  · intro entries h
    unfold loadColumnTickets
    rw [h]
    rw [sortTickets_length, filterMap_length_countP]
  · intro e
    unfold parseEntry
    by_cases hd : e.isDir
    · rw [if_pos hd, hd]
      rfl
    · rw [if_neg hd]
      by_cases hext : extOf e.name ≠ mdExt
      · rw [if_pos hext]
        have hb : (extOf e.name == mdExt) = false := by
          simp only [beq_eq_false_iff_ne, ne_eq]
          exact hext
        rw [hb]
        simp [hd]
      · rw [if_neg hext]
        rw [not_not] at hext
        have hb : (extOf e.name == mdExt) = true := by
          simp only [beq_iff_eq]
          exact hext
        rw [hb]
        cases hp : parseTicketContent e.content now with
        | ok t => simp [hd]
        | error er => simp [hd]
  · intro h
    unfold loadColumnTickets
    rw [h]

/-- Witness for C5: a directory with two well-formed ticket files, one
malformed ticket file, a subdirectory and a non-ticket file lists exactly
the two well-formed tickets, and a missing directory lists nothing. -/
theorem list_column_robust_witness :
    lookupDir c5FS (joinP (strOf "kb") (strOf "todo")) = some c5Entries ∧
      (loadColumnTickets (strOf "kb") c5FS (strOf "todo") 9).length
        = c5Entries.countP
            (fun e => (parseEntry (joinP (strOf "kb") (strOf "todo")) (strOf "todo") 9 e).isSome) ∧
      c5Entries.countP
          (fun e => (parseEntry (joinP (strOf "kb") (strOf "todo")) (strOf "todo") 9 e).isSome)
        = 2 ∧
      loadColumnTickets (strOf "kb") [] (strOf "todo") 9 = [] :=
  ⟨by decide,
    (list_column_robust (strOf "kb") (strOf "todo") 9 c5FS).1 c5Entries (by decide),
    by decide,
    (list_column_robust (strOf "kb") (strOf "todo") 9 []).2.2 rfl⟩

theorem burst_fold (D : Nat) (p : Str) (es : List RawEvent) :
    ∀ (prev : RawEvent) (dl : List (Str × Nat × Nat)),
      burstChainB D p prev es = true →
      es.foldl (stepEvent D) ⟨[⟨p, prev.t + D, prev.op⟩], dl⟩
        = ⟨[⟨p, (es.getLastD prev).t + D, (es.getLastD prev).op⟩], dl⟩ := by
  induction es with
  | nil =>
    intro prev dl _
    rfl
  | cons e es ih =>
    intro prev dl hc
    have hc2 : prev.t < e.t ∧ e.t < prev.t + D ∧ e.path = p ∧ burstChainB D p e es = true := by
      have hu : burstChainB D p prev (e :: es)
          = (decide (prev.t < e.t) && decide (e.t < prev.t + D) && decide (e.path = p) &&
              burstChainB D p e es) := rfl
      rw [hu] at hc
      simp only [Bool.and_eq_true, decide_eq_true_iff] at hc
      exact ⟨hc.1.1.1, hc.1.1.2, hc.1.2, hc.2⟩
    rw [List.foldl_cons]
    have hstep : stepEvent D ⟨[⟨p, prev.t + D, prev.op⟩], dl⟩ e
        = ⟨[⟨p, e.t + D, e.op⟩], dl⟩ := by
      unfold stepEvent fireDue debounceEvent
      have hkeep : (decide (e.t < prev.t + D)) = true := by
        simp only [decide_eq_true_iff]
        exact hc2.2.1
      have hdue : (decide (prev.t + D ≤ e.t)) = false := by
        simp only [decide_eq_false_iff_not]
        omega
      simp only [List.filter_cons, List.filter_nil, hkeep, hdue, if_pos, List.map_nil,
        List.append_nil, cond_true, cond_false]
      have hpath : (decide ((⟨p, prev.t + D, prev.op⟩ : PendingTimer).path ≠ e.path)) = false := by
        simp only [decide_eq_false_iff_not, not_not]
        exact hc2.2.2.1.symm
      simp only [hpath, List.filter_cons, List.filter_nil, cond_false, List.nil_append]
      rw [hc2.2.2.1]
      simp
    rw [hstep, ih e dl hc2.2.2.2]
    have hlast : (e :: es).getLastD prev = es.getLastD e := by
      cases es with
      | nil => rfl
      | cons f fs => rfl
    rw [hlast]

/-- Claim C3. A burst of rapid raw events on one path, each arriving less
than the debounce interval after the previous one, yields exactly one
delivered event: it carries the operation kind of the last raw event, it is
delivered exactly one debounce interval after that last event (so no
earlier than the interval after it), and no timer entry remains. -/
theorem debounce_burst_single_delivery (D : Nat) (p : Str) (e0 : RawEvent)
    (es : List RawEvent) (h0 : e0.path = p) (hc : burstChainB D p e0 es = true) :
    runWatcher D (e0 :: es)
        = ⟨[], [(p, (es.getLastD e0).op, (es.getLastD e0).t + D)]⟩ ∧
      ∀ d ∈ (runWatcher D (e0 :: es)).delivered, (es.getLastD e0).t + D ≤ d.2.2 := by
  have hrun : runWatcher D (e0 :: es)
      = ⟨[], [(p, (es.getLastD e0).op, (es.getLastD e0).t + D)]⟩ := by
    unfold runWatcher
    rw [List.foldl_cons]
    have h1 : stepEvent D initW e0 = ⟨[⟨e0.path, e0.t + D, e0.op⟩], []⟩ := rfl
    rw [h1, h0]
    rw [burst_fold D p es e0 [] hc]
    rfl
  refine ⟨hrun, ?_⟩
  rw [hrun]
  intro d hd
  simp only [List.mem_singleton] at hd
  subst hd
  exact Nat.le_refl _

/-- Witness for C3: two raw write events 50 time units apart under a 150
unit debounce deliver exactly one event, 150 units after the second. -/
theorem debounce_burst_single_delivery_witness :
    c3e1.path = c3Path ∧ burstChainB 150 c3Path c3e1 [c3e2] = true ∧
      (runWatcher 150 [c3e1, c3e2]
          = ⟨[], [(c3Path, ([c3e2].getLastD c3e1).op, ([c3e2].getLastD c3e1).t + 150)]⟩ ∧
        ∀ d ∈ (runWatcher 150 [c3e1, c3e2]).delivered,
          ([c3e2].getLastD c3e1).t + 150 ≤ d.2.2) :=
  ⟨rfl, by decide,
    debounce_burst_single_delivery 150 c3Path c3e1 [c3e2] rfl (by decide)⟩

/-- Claim C4, amended. On a full output queue the error forwarding drops
(its select has a default case), but the firing debounce timer does not
drop its event: with the watcher still open it blocks until the consumer
drains the queue or the watcher closes. -/
theorem full_queue_policy (c : BChan) (h : c.cap ≤ c.len) :
    errorSend c = SendOutcome.dropped ∧ timerEventSend false c = SendOutcome.blocked := by
  refine ⟨?_, ?_⟩
  · unfold errorSend
    rw [if_neg (by omega)]
  · unfold timerEventSend
    rw [if_neg (by omega)]
    rfl

/-- Witness for C4 at the full event channel of the watcher constructor. -/
theorem full_queue_policy_witness :
    (⟨eventChanCap, eventChanCap⟩ : BChan).cap ≤ (⟨eventChanCap, eventChanCap⟩ : BChan).len ∧
      (errorSend ⟨eventChanCap, eventChanCap⟩ = SendOutcome.dropped ∧
        timerEventSend false ⟨eventChanCap, eventChanCap⟩ = SendOutcome.blocked) :=
  ⟨by decide, full_queue_policy ⟨eventChanCap, eventChanCap⟩ (by decide)⟩

/-- Counterexample to C4 as stated: on a full event queue the firing timer
callback blocks rather than dropping the event. -/
theorem timer_send_blocks_cex :
    timerEventSend false ⟨eventChanCap, eventChanCap⟩ = SendOutcome.blocked ∧
      timerEventSend false ⟨eventChanCap, eventChanCap⟩ ≠ SendOutcome.dropped := by decide

/-- Claim C2, amended. The clamp runs only in the delete (and move)
handlers, after their synchronous reload, against the unfiltered count of
the active column: when the column shrank by one and the selection was the
last index, the new index is the old one minus one, with floor at zero.
Watcher-triggered reloads apply no clamp (see the counterexample). -/
theorem delete_reload_clamp (m : BoardModel) (fsA : FS) (now : Nat)
    (hq : m.searchQuery = [])
    (hcol : m.activeColumn < m.colDirs.length)
    (hcols : m.columns.length = m.colDirs.length)
    (hsel : m.activeTicket < (m.columns.getD m.activeColumn []).length)
    (hlen : (loadColumnTickets m.kanbanDir fsA (m.colDirs.getD m.activeColumn []) now).length + 1
        = (m.columns.getD m.activeColumn []).length)
    (hlast : m.activeTicket + 1 = (m.columns.getD m.activeColumn []).length) :
    (deleteSelectedTicket m fsA now).activeTicket = m.activeTicket - 1 := by
  have hvis : getFilteredTickets m m.activeColumn = m.columns.getD m.activeColumn [] := by
    unfold getFilteredTickets
    rw [if_neg (by omega)]
    rw [hq]
    rw [if_neg (by simp)]
  have htk : getSelectedTicket m = some ((m.columns.getD m.activeColumn []).get ⟨m.activeTicket, hsel⟩) := by
    unfold getSelectedTicket
    rw [hvis]
    rw [List.getElem?_eq_getElem hsel]
    rfl
  unfold deleteSelectedTicket
  rw [htk]
  have hmap : (loadAllTickets { m with viewMode := VM.board } fsA now).columns.getD
      m.activeColumn []
      = loadColumnTickets m.kanbanDir fsA (m.colDirs.getD m.activeColumn []) now := by
    unfold loadAllTickets
    dsimp only
    rw [List.getD_eq_getElem?_getD, List.getElem?_map, List.getElem?_eq_getElem hcol]
    rw [List.getD_eq_getElem?_getD, List.getElem?_eq_getElem hcol]
    rfl
  dsimp only
  rw [hmap]
  by_cases h0 : m.activeTicket = 0
  · rw [if_neg (by omega)]
    rw [h0]
    rfl
  · rw [if_pos (by omega)]

/-- Witness for C2 at a two-ticket column whose last ticket is selected and
whose reload returns one ticket. -/
theorem delete_reload_clamp_witness :
    c2DelBoard.searchQuery = [] ∧
      c2DelBoard.activeColumn < c2DelBoard.colDirs.length ∧
      c2DelBoard.columns.length = c2DelBoard.colDirs.length ∧
      c2DelBoard.activeTicket < (c2DelBoard.columns.getD c2DelBoard.activeColumn []).length ∧
      (loadColumnTickets c2DelBoard.kanbanDir oneFileFS
          (c2DelBoard.colDirs.getD c2DelBoard.activeColumn []) 5).length + 1
        = (c2DelBoard.columns.getD c2DelBoard.activeColumn []).length ∧
      c2DelBoard.activeTicket + 1
        = (c2DelBoard.columns.getD c2DelBoard.activeColumn []).length ∧
      (deleteSelectedTicket c2DelBoard oneFileFS 5).activeTicket
        = c2DelBoard.activeTicket - 1 :=
  ⟨rfl, by decide, by decide, by decide, by decide, by decide,
    delete_reload_clamp c2DelBoard oneFileFS 5 rfl (by decide) (by decide) (by decide)
      (by decide) (by decide)⟩

/-- Counterexample to C2 as stated: a watcher-triggered reload shrinks the
active column from three visible tickets to one while the selection index
stays 2, left pointing past the end of the visible sequence with no clamp
applied. -/
theorem watcher_reload_no_clamp_cex :
    (fileChangeStep c2Board oneFileFS 0).activeTicket = 2 ∧
      (getFilteredTickets (fileChangeStep c2Board oneFileFS 0)
          (fileChangeStep c2Board oneFileFS 0).activeColumn).length = 1 ∧
      ¬((fileChangeStep c2Board oneFileFS 0).activeTicket
        < (getFilteredTickets (fileChangeStep c2Board oneFileFS 0)
            (fileChangeStep c2Board oneFileFS 0).activeColumn).length) := by decide

theorem filter_idem {a : Type} (p : a → Bool) (l : List a) :
    (l.filter p).filter p = l.filter p := by
  induction l with
  | nil => rfl
  | cons x xs ih =>
    by_cases hp : p x
    · simp [List.filter_cons, hp, ih]
    · simp [List.filter_cons, hp, ih]

/-- Claim C9. With a nonempty query the visible sequence of a column is
exactly the in-order subsequence of the stored tickets whose lower-cased
title contains the lower-cased query; the computation reads the stored
sequence and builds a new one (the filtered view is the filter of the
stored list, which it leaves in place); filtering is idempotent; and
setting a query then reloading gives the same model as reloading then
setting the query. -/
theorem filter_visible_properties (m : BoardModel) (i : Nat) (q : Str) (fs : FS) (now : Nat)
    (hq : m.searchQuery ≠ []) (hi : i < m.columns.length) :
    getFilteredTickets m i
        = (m.columns.getD i []).filter
            (fun t => containsS (toLowerS t.title) (toLowerS m.searchQuery))
      ∧ (getFilteredTickets m i).Sublist (m.columns.getD i [])
      ∧ filterTickets m.searchQuery (filterTickets m.searchQuery (m.columns.getD i []))
          = filterTickets m.searchQuery (m.columns.getD i [])
      ∧ loadAllTickets (setSearchConfirm q m) fs now
          = setSearchConfirm q (loadAllTickets m fs now) := by
  have h2 : filterTickets m.searchQuery (m.columns.getD i [])
      = (m.columns.getD i []).filter
          (fun t => containsS (toLowerS t.title) (toLowerS m.searchQuery)) := by
    unfold filterTickets
    rw [if_neg hq]
  have h1 : getFilteredTickets m i = filterTickets m.searchQuery (m.columns.getD i []) := by
    unfold getFilteredTickets
    rw [if_neg (by omega), if_pos hq]
  refine ⟨h1.trans h2, ?_, ?_, ?_⟩
  · rw [h1, h2]
    exact List.filter_sublist _
  · rw [h2]
    unfold filterTickets
    rw [if_neg hq]
    exact filter_idem _ _
  · rfl

/-- Witness for C9 at a filtered board: the query fix matches two of three
titles case-insensitively. -/
theorem filter_visible_properties_witness :
    c9Board.searchQuery ≠ [] ∧ 0 < c9Board.columns.length ∧
      (getFilteredTickets c9Board 0
          = (c9Board.columns.getD 0 []).filter
              (fun t => containsS (toLowerS t.title) (toLowerS c9Board.searchQuery))
        ∧ (getFilteredTickets c9Board 0).Sublist (c9Board.columns.getD 0 [])
        ∧ filterTickets c9Board.searchQuery
              (filterTickets c9Board.searchQuery (c9Board.columns.getD 0 []))
            = filterTickets c9Board.searchQuery (c9Board.columns.getD 0 [])
        ∧ loadAllTickets (setSearchConfirm (strOf "bug") c9Board) oneFileFS 3
            = setSearchConfirm (strOf "bug") (loadAllTickets c9Board oneFileFS 3)) :=
  ⟨by decide, by decide,
    filter_visible_properties c9Board 0 (strOf "bug") oneFileFS 3 (by decide) (by decide)⟩

/-- Claim C10. Confirming a move whose target is the active column only
returns to board view: no rename is emitted, and the model (columns, both
selection indices, the stored tickets and the selected ticket) is otherwise
unchanged. -/
theorem move_same_column_noop (m : BoardModel) (fs : FS) (now : Nat) (tk : GoTicket)
    (hsel : getSelectedTicket m = some tk)
    (heq : m.moveTarget = m.activeColumn) :
    moveSelectedTicket m fs now = ({ m with viewMode := VM.board }, none) ∧
      getSelectedTicket (moveSelectedTicket m fs now).1 = some tk ∧
      (moveSelectedTicket m fs now).1.columns = m.columns ∧
      (moveSelectedTicket m fs now).1.activeColumn = m.activeColumn ∧
      (moveSelectedTicket m fs now).1.activeTicket = m.activeTicket := by
  have h1 : moveSelectedTicket m fs now = ({ m with viewMode := VM.board }, none) := by
    unfold moveSelectedTicket
    rw [hsel]
    dsimp only
    rw [if_pos heq]
  refine ⟨h1, ?_, ?_, ?_, ?_⟩
  · rw [h1]
    exact hsel
  · rw [h1]
  · rw [h1]
  · rw [h1]

/-- Witness for C10 at a board in move mode whose target is the active
column. -/
theorem move_same_column_noop_witness :
    getSelectedTicket c10Board = some (mkTk "a" 1) ∧
      c10Board.moveTarget = c10Board.activeColumn ∧
      (moveSelectedTicket c10Board oneFileFS 5
          = ({ c10Board with viewMode := VM.board }, none) ∧
        getSelectedTicket (moveSelectedTicket c10Board oneFileFS 5).1 = some (mkTk "a" 1) ∧
        (moveSelectedTicket c10Board oneFileFS 5).1.columns = c10Board.columns ∧
        (moveSelectedTicket c10Board oneFileFS 5).1.activeColumn = c10Board.activeColumn ∧
        (moveSelectedTicket c10Board oneFileFS 5).1.activeTicket = c10Board.activeTicket) :=
  ⟨by decide, rfl,
    move_same_column_noop c10Board oneFileFS 5 (mkTk "a" 1) (by decide) rfl⟩

theorem goToLower_ascii (c : Char) (h : c.toNat < 128) :
    (goToLower c).toNat < 128 ∧ ¬(65 ≤ (goToLower c).toNat ∧ (goToLower c).toNat ≤ 90) := by
  unfold goToLower
  split_ifs with hA hL
  · have hv : (Char.ofNat (c.toNat + 32)).toNat = c.toNat + 32 :=
      charToNat_ofNat _ (by omega)
    rw [hv]
    omega
  · omega
  · exact ⟨h, fun hc => hA ⟨hc.1, hc.2⟩⟩

theorem kept_ascii_charset (c : Char) (h1 : keepSlugChar c = true) (h2 : c.toNat < 128)
    (h3 : ¬(65 ≤ c.toNat ∧ c.toNat ≤ 90)) :
    (97 ≤ c.toNat ∧ c.toNat ≤ 122) ∨ (48 ≤ c.toNat ∧ c.toNat ≤ 57) ∨ c = '-' := by
  unfold keepSlugChar goIsLetter goIsDigit at h1
  simp only [Bool.or_eq_true, Bool.and_eq_true, decide_eq_true_iff, Bool.not_eq_true',
    beq_iff_eq, beq_eq_false_iff_ne, ne_eq] at h1
  rcases h1 with ((((hx | hx) | hx) | hx) | hx) | hx
  · rcases hx with (hy | hy) | hy
    · exact Or.inl hy
    · exact absurd hy h3
    · omega
  · omega
  · omega
  · omega
  · exact Or.inr (Or.inl hx)
  · exact Or.inr (Or.inr hx)

theorem mem_collapseH (s : Str) (c : Char) :
    ∀ b, c ∈ collapseH b s → c = '-' ∨ c ∈ s := by
  induction s with
  | nil =>
    intro b h
    simp [collapseH] at h
  | cons x r ih =>
    intro b h
    unfold collapseH at h
    by_cases hx : x = '-'
    · rw [if_pos hx] at h
      by_cases hb : b
      · subst hb
        rw [if_pos rfl] at h
        rcases ih true h with h2 | h2
        · exact Or.inl h2
        · exact Or.inr (List.mem_cons_of_mem x h2)
      · simp only [Bool.not_eq_true] at hb
        subst hb
        rw [if_neg (by simp)] at h
        rcases List.mem_cons.mp h with h2 | h2
        · exact Or.inl h2
        · rcases ih true h2 with h3 | h3
          · exact Or.inl h3
          · exact Or.inr (List.mem_cons_of_mem x h3)
    · rw [if_neg hx] at h
      rcases List.mem_cons.mp h with h2 | h2
      · exact Or.inr (h2 ▸ List.mem_cons_self x r)
      · rcases ih false h2 with h3 | h3
        · exact Or.inl h3
        · exact Or.inr (List.mem_cons_of_mem x h3)

theorem mem_trimHyphens (s : Str) (c : Char) (h : c ∈ trimHyphens s) : c ∈ s := by
  unfold trimHyphens at h
  rw [List.mem_reverse] at h
  have h1 := (List.dropWhile_sublist (l := (s.dropWhile (fun x => x == '-')).reverse)
    (p := fun x => x == '-')).subset h
  rw [List.mem_reverse] at h1
  exact (List.dropWhile_sublist (l := s) (p := fun x => x == '-')).subset h1

theorem mem_takeBytes (s : Str) (c : Char) : ∀ b, c ∈ takeBytes b s → c ∈ s := by
  induction s with
  | nil =>
    intro b h
    simp [takeBytes] at h
  | cons x r ih =>
    intro b h
    unfold takeBytes at h
    split at h
    · rcases List.mem_cons.mp h with h2 | h2
      · exact h2 ▸ List.mem_cons_self x r
      · exact List.mem_cons_of_mem x (ih _ h2)
    · simp at h

theorem mem_trimOneHyphen (s : Str) (c : Char) (h : c ∈ trimOneHyphen s) : c ∈ s := by
  unfold trimOneHyphen at h
  split at h
  · exact (List.dropLast_sublist s).subset h
  · exact h

theorem s2_charset (title : Str) (h : ∀ c ∈ title, c.toNat < 128) :
    ∀ c ∈ ((title.map goToLower).map (fun c => if c = ' ' then '-' else c)).filter keepSlugChar,
      (97 ≤ c.toNat ∧ c.toNat ≤ 122) ∨ (48 ≤ c.toNat ∧ c.toNat ≤ 57) ∨ c = '-' := by
  intro c hc
  rw [List.mem_filter] at hc
  obtain ⟨hc1, hkeep⟩ := hc
  rw [List.mem_map] at hc1
  obtain ⟨x1, hx1, he1⟩ := hc1
  rw [List.mem_map] at hx1
  obtain ⟨x0, hx0, he0⟩ := hx1
  subst he0
  have hlow := goToLower_ascii x0 (h x0 hx0)
  by_cases hsp : goToLower x0 = ' '
  · rw [if_pos hsp] at he1
    exact Or.inr (Or.inr he1.symm)
  · rw [if_neg hsp] at he1
    subst he1
    exact kept_ascii_charset _ hkeep hlow.1 hlow.2

/-- Claim C6, amended. The generated filename is the formatted creation
date, a hyphen, the slug and the fixed extension; the slug is never empty;
and for an all-ASCII title every character of the slug is in the class of
lower-case ASCII letters, ASCII digits and hyphens. (The source keeps every
Unicode letter or digit, so for titles beyond ASCII the slug may contain
lower-cased non-ASCII letters; see the counterexample.) -/
theorem slugify_filename_ascii (y mo d : Nat) (title : Str)
    (h : ∀ c ∈ title, c.toNat < 128) :
    generateFilename y mo d title
        = formatDateYMD y mo d ++ '-' :: slugify title ++ strOf ".md"
      ∧ slugify title ≠ []
      ∧ ∀ c ∈ slugify title,
          (97 ≤ c.toNat ∧ c.toNat ≤ 122) ∨ (48 ≤ c.toNat ∧ c.toNat ≤ 57) ∨ c = '-' := by
  have hgen : ∀ s4 : Str, (if s4 = [] then strOf "untitled" else s4) ≠ [] := by
    intro s4
    split
    · decide
    · assumption
  refine ⟨rfl, ?_, ?_⟩
  · unfold slugify
    exact hgen _
  · intro c hc
    unfold slugify at hc
    dsimp only at hc
    have huntitled : ∀ x ∈ strOf "untitled",
        (97 ≤ x.toNat ∧ x.toNat ≤ 122) ∨ (48 ≤ x.toNat ∧ x.toNat ≤ 57) ∨ x = '-' := by
      decide
    have hs3 : ∀ x, x ∈ trimHyphens (collapseH false
        (((title.map goToLower).map (fun c => if c = ' ' then '-' else c)).filter
          keepSlugChar)) →
        (97 ≤ x.toNat ∧ x.toNat ≤ 122) ∨ (48 ≤ x.toNat ∧ x.toNat ≤ 57) ∨ x = '-' := by
      intro x hx
      have hx2 := mem_trimHyphens _ x hx
      rcases mem_collapseH _ x false hx2 with h3 | h3
      · exact Or.inr (Or.inr h3)
      · exact s2_charset title h x h3
    split at hc
    · split at hc
      · exact huntitled c hc
      · exact hs3 c (mem_takeBytes _ c 50 (mem_trimOneHyphen _ c hc))
    · split at hc
      · exact huntitled c hc
      · exact hs3 c hc

/-- Witness for C6 at the scenario title: the filename for the ticket Fix
login bug created 2025-06-01 is 2025-06-01-fix-login-bug.md, and its slug
stays within lower-case ASCII letters, digits and hyphens. -/
theorem slugify_filename_ascii_witness :
    (∀ c ∈ strOf "Fix login bug", c.toNat < 128) ∧
      (generateFilename 2025 6 1 (strOf "Fix login bug")
          = formatDateYMD 2025 6 1 ++ '-' :: slugify (strOf "Fix login bug") ++ strOf ".md"
        ∧ slugify (strOf "Fix login bug") ≠ []
        ∧ ∀ c ∈ slugify (strOf "Fix login bug"),
            (97 ≤ c.toNat ∧ c.toNat ≤ 122) ∨ (48 ≤ c.toNat ∧ c.toNat ≤ 57) ∨ c = '-') ∧
      generateFilename 2025 6 1 (strOf "Fix login bug")
        = strOf "2025-06-01-fix-login-bug.md" :=
  ⟨by decide, slugify_filename_ascii 2025 6 1 (strOf "Fix login bug") (by decide), by decide⟩

/-- Counterexample to C6 as stated: the slug of the title with the single
letter e-acute keeps that letter (the source keeps every Unicode letter),
so the slug is not always within the ASCII class. -/
theorem slugify_nonascii_cex :
    slugify (strOf "é") = strOf "é" ∧
      ¬(∀ c ∈ slugify (strOf "é"),
        (97 ≤ c.toNat ∧ c.toNat ≤ 122) ∨ (48 ≤ c.toNat ∧ c.toNat ≤ 57) ∨ c = '-') := by
  decide

theorem mem_insertT (x z : GoTicket) (l : List GoTicket) (h : z ∈ insertT x l) :
    z = x ∨ z ∈ l := by
  induction l with
  | nil =>
    rcases List.mem_singleton.mp h with h2
    exact Or.inl h2
  | cons y ys ih =>
    unfold insertT at h
    split at h
    · rcases List.mem_cons.mp h with h2 | h2
      · exact Or.inl h2
      · exact Or.inr h2
    · rcases List.mem_cons.mp h with h2 | h2
      · exact Or.inr (h2 ▸ List.mem_cons_self y ys)
      · rcases ih h2 with h3 | h3
        · exact Or.inl h3
        · exact Or.inr (List.mem_cons_of_mem y h3)

theorem insertT_sorted (x : GoTicket) (l : List GoTicket)
    (h : l.Pairwise (fun a b => b.updated ≤ a.updated)) :
    (insertT x l).Pairwise (fun a b => b.updated ≤ a.updated) := by
  induction l with
  | nil => simp [insertT]
  | cons y ys ih =>
    rw [List.pairwise_cons] at h
    unfold insertT
    split
    · rename_i hlt
      rw [List.pairwise_cons]
      refine ⟨?_, List.pairwise_cons.mpr h⟩
      intro z hz
      rcases List.mem_cons.mp hz with h2 | h2
      · subst h2
        omega
      · have h3 := h.1 z h2
        omega
    · rename_i hge
      rw [List.pairwise_cons]
      refine ⟨?_, ih h.2⟩
      intro z hz
      rcases mem_insertT x z ys hz with h2 | h2
      · subst h2
        omega
      · exact h.1 z h2

theorem sortTickets_sorted (l : List GoTicket) :
    (sortTickets l).Pairwise (fun a b => b.updated ≤ a.updated) := by
  induction l with
  | nil => simp [sortTickets]
  | cons x xs ih => exact insertT_sorted x (sortTickets xs) ih

/-- The listing of a column is sorted by updated timestamp descending; this
is the sortedness half of the ordering contract, the order among equal
timestamps being left unspecified by the source sort. -/
theorem loadColumn_sorted_desc (kanbanDir colDir : Str) (fs : FS) (now : Nat) :
    (loadColumnTickets kanbanDir fs colDir now).Pairwise
      (fun a b => b.updated ≤ a.updated) := by
  unfold loadColumnTickets
  cases lookupDir fs (joinP kanbanDir colDir) with
  | none => simp
  | some entries => exact sortTickets_sorted _
